import Mathlib

/-!
# Lab_5: a decorator pipeline around a translation request

A shallow embedding of `src/main.cpp`.

* A `std::string` is a list of `char`s; a `char` is identified with the Lean
  character of the same code (bytes are the codes 0 to 255).
* The console, the file system and the network are an explicit `World` that every
  effectful function takes and returns; what the program prints, posts and writes
  is appended to `World.trace` in program order.
* An exception thrown by the JSON library is the `error` case of `Except`.
* `int` is a 32-bit two's-complement integer.

Definitions come first (sections 1 to 8), the theorems about them follow.
-/

namespace Lab5

/-! ## 1. Texts and the word counter -/

/-- A `std::string`: the sequence of its `char`s. -/
abbrev Text := List Char

/-- The `isspace` of `<cctype>` in the "C" locale: space, `\t`, `\n`, `\v`, `\f`, `\r`. -/
def isspace (c : Char) : Bool :=
  c == ' ' || c == '\t' || c == '\n' || c == Char.ofNat 11 || c == Char.ofNat 12 || c == '\r'

/-- The value an `int` holds after a computation whose mathematical result is `z`:
`z` reduced into the range `-2^31 .. 2^31 - 1`. -/
def wrapInt (z : Int) : Int := (z + 2147483648) % 4294967296 - 2147483648

/-- One iteration of the loop of `WordCountDecorator::countWords`, on the pair
`(count, inWord)`. The counter is an `int`: `++count` past `INT_MAX` has no value the
C++ standard defines, and the model gives it the value two's-complement hardware
does. -/
def countStep (st : Int × Bool) (c : Char) : Int × Bool :=
  if isspace c then (st.1, false)
  else if !st.2 then (wrapInt (st.1 + 1), true)
  else st

/-- The function `WordCountDecorator::countWords`: `count = 0`, `inWord = false`, one
`countStep` per character from left to right, result `count`. -/
def countWords (text : Text) : Int := (text.foldl countStep (0, false)).1

/-- Position `i` starts a maximal run of non-whitespace characters: character `i` is
not whitespace and either `i = 0` or character `i - 1` is whitespace. -/
def isWordStart (text : Text) (i : Nat) : Bool :=
  !isspace (text.getD i ' ') && (i == 0 || isspace (text.getD (i - 1) ' '))

/-- The number of maximal runs of non-whitespace characters of a text. -/
def wordStarts (text : Text) : Nat :=
  ((List.range text.length).filter (isWordStart text)).length

/-- The text `t` written `n` times in a row. -/
def repeatText : Nat → Text → Text
  | 0, _ => []
  | n + 1, t => t ++ repeatText n t

/-- The text `t` is `s` with whitespace characters inserted at the start, at the end
or next to a whitespace character that is already there, any number of times. -/
inductive WsInserted : Text → Text → Prop
  | same (s : Text) : WsInserted s s
  | atStart {s t : Text} (c : Char) : isspace c = true → WsInserted s t → WsInserted s (c :: t)
  | atEnd {s t : Text} (c : Char) : isspace c = true → WsInserted s t → WsInserted s (t ++ [c])
  | beforeSpace {s : Text} (a b : Text) (c d : Char) : isspace c = true → isspace d = true →
      WsInserted s (a ++ c :: b) → WsInserted s (a ++ d :: c :: b)
  | afterSpace {s : Text} (a b : Text) (c d : Char) : isspace c = true → isspace d = true →
      WsInserted s (a ++ c :: b) → WsInserted s (a ++ c :: d :: b)

/-- Word starts of a text whose predecessor character is whitespace iff `prevSpace`. -/
def startsAfter : Bool → Text → Nat
  | _, [] => 0
  | prevSpace, c :: cs =>
    (if !isspace c && prevSpace then 1 else 0) + startsAfter (isspace c) cs

/-- The count of `wordStarts` with the condition at position 0 replaced by `p`. -/
def startsFrom (p : Bool) (text : Text) : Nat :=
  ((List.range text.length).filter (fun i =>
    !isspace (text.getD i ' ') && (if i = 0 then p else isspace (text.getD (i - 1) ' ')))).length

/-- Whether the last character of a text is whitespace (`p` for the empty text). -/
def endsInSpace : Bool → Text → Bool
  | p, [] => p
  | _, c :: cs => endsInSpace (isspace c) cs

/-! ## 2. JSON values and the reader of `json.hpp` -/

/-- Modelled from the spec: the value type `nlohmann::json` of `json.hpp`, which is not
under `src/`. A number keeps its literal (its numeric value plays no part here); an
object keeps one value per key. -/
inductive Json where
  | null
  | bool (b : Bool)
  | number (lexeme : Text)
  | string (s : Text)
  | array (elems : List Json)
  | object (members : List (Text × Json))

/-- Modelled from the spec: the exceptions of `json.hpp` (not under `src/`) that the
program can meet: `parse_error` of `json::parse`, and `type_error` with its id (305 for
`operator[]` on a value of the wrong type, 302 for a conversion to a string of a value
that is no string). -/
inductive JsonException where
  | parse_error
  | type_error (id : Nat)
  deriving DecidableEq

/-- The whitespace of the JSON grammar: space, tab, line feed, carriage return. -/
def isJsonSpace (c : Char) : Bool :=
  c == ' ' || c == '\t' || c == '\n' || c == '\r'

/-- Drops leading JSON whitespace. -/
def skipSpace : Text → Text
  | [] => []
  | c :: cs => if isJsonSpace c then skipSpace cs else c :: cs

/-- The value of a hexadecimal digit. -/
def hexValue (c : Char) : Option Nat :=
  if '0'.toNat ≤ c.toNat ∧ c.toNat ≤ '9'.toNat then some (c.toNat - '0'.toNat)
  else if 'a'.toNat ≤ c.toNat ∧ c.toNat ≤ 'f'.toNat then some (c.toNat - 'a'.toNat + 10)
  else if 'A'.toNat ≤ c.toNat ∧ c.toNat ≤ 'F'.toNat then some (c.toNat - 'A'.toNat + 10)
  else none

/-- The UTF-8 bytes of a code point. -/
def utf8Encode (cp : Nat) : Text :=
  if cp < 0x80 then [Char.ofNat cp]
  else if cp < 0x800 then [Char.ofNat (0xC0 + cp / 64), Char.ofNat (0x80 + cp % 64)]
  else if cp < 0x10000 then
    [Char.ofNat (0xE0 + cp / 4096), Char.ofNat (0x80 + cp / 64 % 64), Char.ofNat (0x80 + cp % 64)]
  else
    [Char.ofNat (0xF0 + cp / 262144), Char.ofNat (0x80 + cp / 4096 % 64),
      Char.ofNat (0x80 + cp / 64 % 64), Char.ofNat (0x80 + cp % 64)]

/-- The ranges the bytes after a UTF-8 lead byte must lie in; `none` for a byte that
cannot start a multi-byte sequence. -/
def utf8Tail (lead : Nat) : Option (List (Nat × Nat)) :=
  if 0xC2 ≤ lead ∧ lead ≤ 0xDF then some [(0x80, 0xBF)]
  else if lead = 0xE0 then some [(0xA0, 0xBF), (0x80, 0xBF)]
  else if (0xE1 ≤ lead ∧ lead ≤ 0xEC) ∨ lead = 0xEE ∨ lead = 0xEF then
    some [(0x80, 0xBF), (0x80, 0xBF)]
  else if lead = 0xED then some [(0x80, 0x9F), (0x80, 0xBF)]
  else if lead = 0xF0 then some [(0x90, 0xBF), (0x80, 0xBF), (0x80, 0xBF)]
  else if 0xF1 ≤ lead ∧ lead ≤ 0xF3 then some [(0x80, 0xBF), (0x80, 0xBF), (0x80, 0xBF)]
  else if lead = 0xF4 then some [(0x80, 0x8F), (0x80, 0xBF), (0x80, 0xBF)]
  else none

/-- Where the scanner of a string literal stands: between characters (`plain`), after a
backslash, inside the four hexadecimal digits of a `\u` escape (with the high surrogate
that came before, if any), after a high surrogate (a backslash, then a `u`, must
follow), or inside a multi-byte UTF-8 sequence. -/
inductive Scan where
  | plain
  | escape
  | hex (left : Nat) (value : Nat) (high : Option Nat)
  | lowBackslash (high : Nat)
  | lowU (high : Nat)
  | continuation (ranges : List (Nat × Nat))

/-- The character a one-letter escape stands for. -/
def simpleEscape (c : Char) : Option Char :=
  if c = '"' then some '"'
  else if c = '\\' then some '\\'
  else if c = '/' then some '/'
  else if c = 'b' then some (Char.ofNat 8)
  else if c = 'f' then some (Char.ofNat 12)
  else if c = 'n' then some '\n'
  else if c = 'r' then some '\r'
  else if c = 't' then some '\t'
  else none

/-- The state after a byte of a multi-byte sequence, given the ranges still to come. -/
def afterContinuation : List (Nat × Nat) → Scan
  | [] => .plain
  | r :: rs => .continuation (r :: rs)

/-- The end of a `\u` escape of value `cp`: a low surrogate completes a pending high
one, a high surrogate waits for its low one, a lone low surrogate is an error, any
other code point is written out in UTF-8. -/
def finishHex (cp : Nat) : Option Nat → Option (Scan × Text)
  | some hi =>
    if 0xDC00 ≤ cp ∧ cp ≤ 0xDFFF then
      some (.plain, utf8Encode (0x10000 + (hi - 0xD800) * 1024 + (cp - 0xDC00)))
    else none
  | none =>
    if 0xD800 ≤ cp ∧ cp ≤ 0xDBFF then some (.lowBackslash cp, [])
    else if 0xDC00 ≤ cp ∧ cp ≤ 0xDFFF then none
    else some (.plain, utf8Encode cp)

/-- One character of a string literal: the next state and the bytes added to the
decoded string, or `none` for a character that is not allowed there (a control
character, an unknown escape, an ill-formed UTF-8 byte). -/
def scanStep : Scan → Char → Option (Scan × Text)
  | .plain, c =>
    if c = '\\' then some (.escape, [])
    else if c.toNat < 0x20 then none
    else if c.toNat < 0x80 then some (.plain, [c])
    else (utf8Tail c.toNat).map (fun rs => (afterContinuation rs, [c]))
  | .escape, c =>
    if c = 'u' then some (.hex 4 0 none, [])
    else (simpleEscape c).map (fun d => (.plain, [d]))
  | .hex left value high, c =>
    match hexValue c with
    | none => none
    | some d =>
      if left ≤ 1 then finishHex (value * 16 + d) high
      else some (.hex (left - 1) (value * 16 + d) high, [])
  | .lowBackslash high, c => if c = '\\' then some (.lowU high, []) else none
  | .lowU high, c => if c = 'u' then some (.hex 4 0 (some high), []) else none
  | .continuation [], _ => none
  | .continuation ((lo, hi) :: rs), c =>
    if lo ≤ c.toNat ∧ c.toNat ≤ hi then some (afterContinuation rs, [c]) else none

/-- Whether the scanner stands between characters. -/
def Scan.isPlain : Scan → Bool
  | .plain => true
  | _ => false

/-- Reads a string literal from just after its opening quote: the decoded string and
the input after the closing quote. -/
def scanString : Scan → Text → Option (Text × Text)
  | _, [] => none
  | st, c :: rest =>
    if st.isPlain ∧ c = '"' then some ([], rest)
    else
      match scanStep st c with
      | none => none
      | some (st1, out) =>
        match scanString st1 rest with
        | none => none
        | some (s, rest1) => some (out ++ s, rest1)

/-- A decimal digit. -/
def isDigit (c : Char) : Bool := '0'.toNat ≤ c.toNat && c.toNat ≤ '9'.toNat

/-- The longest run of digits at the front of the input, and what follows it. -/
def takeDigits : Text → Text × Text
  | [] => ([], [])
  | c :: cs =>
    if isDigit c then ((takeDigits cs).1.cons c, (takeDigits cs).2) else ([], c :: cs)

/-- One or more digits. -/
def scanDigits1 (inp : Text) : Option (Text × Text) :=
  match takeDigits inp with
  | ([], _) => none
  | r => some r

/-- The optional exponent of a number: `e` or `E`, an optional sign, one or more digits. -/
def scanExponent (inp : Text) : Option (Text × Text) :=
  match inp with
  | e :: rest =>
    if e = 'e' ∨ e = 'E' then
      match rest with
      | s :: rest1 =>
        if s = '+' ∨ s = '-' then (scanDigits1 rest1).map (fun r => (e :: s :: r.1, r.2))
        else (scanDigits1 rest).map (fun r => (e :: r.1, r.2))
      | [] => none
    else some ([], inp)
  | [] => some ([], inp)

/-- The optional fraction of a number: a dot and one or more digits. -/
def scanFraction (inp : Text) : Option (Text × Text) :=
  match inp with
  | '.' :: rest => (scanDigits1 rest).map (fun r => ('.' :: r.1, r.2))
  | _ => some ([], inp)

/-- The integer part of a number: a single `0`, or digits that do not start with `0`. -/
def scanInteger (inp : Text) : Option (Text × Text) :=
  match inp with
  | '0' :: rest => some (['0'], rest)
  | _ => scanDigits1 inp

/-- A number without its sign. -/
def scanUnsigned (inp : Text) : Option (Text × Text) :=
  match scanInteger inp with
  | none => none
  | some (i, r1) =>
    match scanFraction r1 with
    | none => none
    | some (f, r2) =>
      match scanExponent r2 with
      | none => none
      | some (e, r3) => some (i ++ f ++ e, r3)

/-- A number literal and the input after it. -/
def scanNumber (inp : Text) : Option (Text × Text) :=
  match inp with
  | '-' :: rest => (scanUnsigned rest).map (fun r => ('-' :: r.1, r.2))
  | _ => scanUnsigned inp

/-- Stores `v` under `key`: a key that is already there keeps its place and takes the
new value (of two members with one name the later one wins). -/
def setMember (key : Text) (v : Json) : List (Text × Json) → List (Text × Json)
  | [] => [(key, v)]
  | (k, x) :: ms => if k = key then (k, v) :: ms else (k, x) :: setMember key v ms

/-- The input after the given characters, when it starts with them. -/
def stripLiteral : Text → Text → Option Text
  | [], inp => some inp
  | _ :: _, [] => none
  | l :: ls, c :: cs => if l = c then stripLiteral ls cs else none

mutual
/-- Reads one JSON value (whitespace before it is skipped) and returns it with the
input that follows. The first argument bounds the number of nested calls. -/
def parseValue : Nat → Text → Option (Json × Text)
  | 0, _ => none
  | fuel + 1, inp =>
    match skipSpace inp with
    | [] => none
    | c :: rest =>
      if c = '{' then
        match skipSpace rest with
        | [] => none
        | d :: rest1 =>
          if d = '}' then some (.object [], rest1)
          else (parseMembers fuel (d :: rest1) []).map (fun r => (.object r.1, r.2))
      else if c = '[' then
        match skipSpace rest with
        | [] => none
        | d :: rest1 =>
          if d = ']' then some (.array [], rest1)
          else (parseElements fuel (d :: rest1)).map (fun r => (.array r.1, r.2))
      else if c = '"' then (scanString .plain rest).map (fun r => (.string r.1, r.2))
      else if c = 't' then (stripLiteral ['r', 'u', 'e'] rest).map (fun r => (.bool true, r))
      else if c = 'f' then
        (stripLiteral ['a', 'l', 's', 'e'] rest).map (fun r => (.bool false, r))
      else if c = 'n' then (stripLiteral ['u', 'l', 'l'] rest).map (fun r => (.null, r))
      else (scanNumber (c :: rest)).map (fun r => (.number r.1, r.2))
/-- Reads the elements of an array up to and including its closing bracket. -/
def parseElements : Nat → Text → Option (List Json × Text)
  | 0, _ => none
  | fuel + 1, inp =>
    match parseValue fuel inp with
    | none => none
    | some (v, rest) =>
      match skipSpace rest with
      | [] => none
      | d :: rest1 =>
        if d = ',' then (parseElements fuel rest1).map (fun r => (v :: r.1, r.2))
        else if d = ']' then some ([v], rest1)
        else none
/-- Reads the members of an object up to and including its closing brace, adding them
to the members read so far. -/
def parseMembers : Nat → Text → List (Text × Json) → Option (List (Text × Json) × Text)
  | 0, _, _ => none
  | fuel + 1, inp, acc =>
    match skipSpace inp with
    | [] => none
    | q :: rest =>
      if q = '"' then
        match scanString .plain rest with
        | none => none
        | some (key, rest1) =>
          match skipSpace rest1 with
          | [] => none
          | colon :: rest2 =>
            if colon = ':' then
              match parseValue fuel rest2 with
              | none => none
              | some (v, rest3) =>
                match skipSpace rest3 with
                | [] => none
                | d :: rest4 =>
                  if d = ',' then parseMembers fuel rest4 (setMember key v acc)
                  else if d = '}' then some (setMember key v acc, rest4)
                  else none
            else none
      else none
end

/-- Drops a UTF-8 byte order mark; an input that starts with `0xEF` must start with the
whole mark. -/
def stripBom (inp : Text) : Option Text :=
  match inp with
  | c :: rest =>
    if c.toNat = 0xEF then stripLiteral [Char.ofNat 0xBB, Char.ofNat 0xBF] rest
    else some inp
  | [] => some inp

/-- Modelled from the spec: `nlohmann::json::parse` of `json.hpp`, which is not under
`src/`: the reader of the JSON grammar (RFC 8259) that "parse response as JSON" and
"valid JSON" refer to. The whole input must be one value, with whitespace allowed
around it; `none` is the `parse_error` exception. Every nested call reads at least one
character or is followed by one that does, so the bound `2 * length + 2` is never what
makes the reader reject an input (`parseJson_eq_some_iff` below). The magnitude of a
number is not looked at. -/
def parseJson (inp : Text) : Option Json :=
  match stripBom inp with
  | none => none
  | some body =>
    match parseValue (2 * body.length + 2) body with
    | none => none
    | some (v, rest) =>
      match skipSpace rest with
      | [] => some v
      | _ :: _ => none

/-- The value stored under a key of an object. -/
def lookupMember (key : Text) : List (Text × Json) → Option Json
  | [] => none
  | (k, x) :: ms => if k = key then some x else lookupMember key ms

/-- Modelled from the spec: `operator[]` of `json.hpp` (not under `src/`) with a key, on
a value that is not `const`: `null` becomes an object, a key that is missing is added
with the value `null`, and a value that is neither `null` nor an object throws
`type_error` 305. The result is the referenced member. -/
def Json.atKey (j : Json) (key : Text) : Except JsonException Json :=
  match j with
  | .null => .ok .null
  | .object ms => .ok ((lookupMember key ms).getD .null)
  | _ => .error (.type_error 305)

/-- Modelled from the spec: `operator[]` of `json.hpp` (not under `src/`) with an index,
on a value that is not `const`: `null` becomes an array, an array that is too short is
filled up with `null`, and a value that is neither `null` nor an array throws
`type_error` 305. The result is the referenced element. -/
def Json.atIndex (j : Json) (idx : Nat) : Except JsonException Json :=
  match j with
  | .null => .ok .null
  | .array es => .ok (es.getD idx .null)
  | _ => .error (.type_error 305)

/-- Modelled from the spec: the conversion of a `json` value to `std::string` of
`json.hpp` (not under `src/`): a string gives its content, any other value throws
`type_error` 302. -/
def Json.getString : Json → Except JsonException Text
  | .string s => .ok s
  | _ => .error (.type_error 302)

/-! ## 3. The translation client -/

/-- The text before the input in the request body. -/
def payloadHead : Text := "\x7b\"targetLanguageCode\": \"en\", \"texts\": [\"".toList

/-- The text after the input in the request body. -/
def payloadTail : Text := "\"]\x7d".toList

/-- The `jsonPayload` of `translateUsingYandexAPI`: the input between the two raw
string literals. -/
def jsonPayload (text : Text) : Text := payloadHead ++ text ++ payloadTail

/-- The bytes a `c_str()` pointer denotes to a reader of C strings: the characters
before the first NUL. -/
def cString (s : Text) : Text := s.takeWhile (fun c => c != Char.ofNat 0)

/-- One transfer as libcurl is set up for it. -/
structure Request where
  url : String
  headers : List String
  body : Text
  deriving DecidableEq

/-- The request of `translateUsingYandexAPI`: the URL, the two headers and, as
`CURLOPT_POSTFIELDS`, the C string of the payload. -/
def mkRequest (apiKey : String) (text : Text) : Request :=
  ⟨"https://translate.api.cloud.yandex.net/translate/v2/translate",
    ["Authorization: Api-Key " ++ apiKey, "Content-Type: application/json"],
    cString (jsonPayload text)⟩

/-- The key `targetLanguageCode` of the request. -/
def languageKey : Text := "targetLanguageCode".toList

/-- The language code `en` of the request. -/
def languageCode : Text := "en".toList

/-- The key `texts` of the request. -/
def textsKey : Text := "texts".toList

/-- The request the spec's TranslationRequest describes for a text: the object with
`targetLanguageCode` equal to `en` and `texts` holding exactly that text. -/
def requestObject (text : Text) : Json :=
  .object [(languageKey, .string languageCode), (textsKey, .array [.string text])]

/-- A character that may stand for itself in a JSON string literal and is ASCII: its
code is at least `0x20` and below `0x80`, and it is neither the double quote nor the
backslash. -/
def isPlainAscii (c : Char) : Bool :=
  decide (0x20 ≤ c.toNat) && decide (c.toNat < 0x80) && c != '"' && c != '\\'

/-- The key `translations` of line 70. -/
def translationsKey : Text := "translations".toList

/-- The key `text` of line 70. -/
def textKey : Text := "text".toList

/-- Line 70 of `main.cpp`: `jsonResponse["translations"][0]["text"]`, converted to
the `std::string` the function returns. -/
def extractText (jsonResponse : Json) : Except JsonException Text :=
  match jsonResponse.atKey translationsKey with
  | .error e => .error e
  | .ok translations =>
    match translations.atIndex 0 with
    | .error e => .error e
    | .ok first =>
      match first.atKey textKey with
      | .error e => .error e
      | .ok t => t.getString

/-- The shape the client expects of a parsed response: an object whose member
`translations` is a non-empty array, whose element 0 is an object, whose member `text`
is the string `s`. -/
def HasTranslation (j : Json) (s : Text) : Prop :=
  ∃ ms elems fields, j = .object ms
    ∧ lookupMember translationsKey ms = some (.array (.object fields :: elems))
    ∧ lookupMember textKey fields = some (.string s)

/-- Lines 69 and 70 of `main.cpp`: the buffer is parsed, then the text is extracted. -/
def parseResponse (readBuffer : Text) : Except JsonException Text :=
  match parseJson readBuffer with
  | none => .error .parse_error
  | some jsonResponse => extractText jsonResponse

/-! ## 4. The world: console, files, network -/

/-- What the program does that can be observed from outside, one constructor per
output statement, network transfer and file write of `main.cpp`. -/
inductive Event where
  /-- The line `Лог: перевод текста...` on `cout`. -/
  | logNotice
  /-- The line `Количество слов: n` on `cout`. -/
  | wordCount (n : Int)
  /-- The line `Текст сохранён в файл: name` on `cout`. -/
  | saved (fileName : String)
  /-- The line `Результат перевода: t` on `cout`. -/
  | result (t : Text)
  /-- The line `Ошибка запроса: ...` on `cerr`, for a `CURLcode`. -/
  | requestError (code : Nat)
  /-- The line `Не удалось открыть файл: name` on `cerr`. -/
  | openError (fileName : String)
  /-- The transfer `curl_easy_perform` runs. -/
  | httpPost (req : Request)
  /-- A file opened by `ofstream` (and so emptied) and written. -/
  | fileWrite (fileName : String) (content : Text)
  deriving DecidableEq

/-- The environment of one run. `files` gives the content of every file that can be
opened for reading, `writable` tells which files `ofstream` can open, `curlAvailable`
whether `curl_easy_init` returns a handle, `transport` the `CURLcode` of a transfer
(0 is `CURLE_OK`) and the pieces of the response body `WriteCallback` was called with
during it, in order; `trace` lists what has happened so far. -/
structure World where
  files : String → Option Text
  writable : String → Bool
  curlAvailable : Bool
  transport : Request → Nat × List Text
  trace : List Event

/-- Appends an event to the trace. -/
def World.emit (w : World) (e : Event) : World :=
  ⟨w.files, w.writable, w.curlAvailable, w.transport, w.trace ++ [e]⟩

/-- Replaces the content of a file. -/
def World.store (w : World) (fileName : String) (content : Text) : World :=
  ⟨fun n => if n = fileName then some content else w.files n,
    w.writable, w.curlAvailable, w.transport, w.trace⟩

/-- The function `BaseTranslator::WriteCallback`: the piece is appended to the string
behind `userp`, and its size is returned. -/
def WriteCallback (contents : Text) (userp : Text) : Nat × Text :=
  (contents.length, userp ++ contents)

/-- The `readBuffer` after a transfer: empty at first, then handed to `WriteCallback`
with every piece of the response. -/
def received (pieces : List Text) : Text :=
  pieces.foldl (fun readBuffer contents => (WriteCallback contents readBuffer).2) []

/-- The function `BaseTranslator::translateUsingYandexAPI`. With a handle, the transfer
is performed and its bytes are collected in `readBuffer`; a code other than `CURLE_OK`
is reported on `cerr`. Whatever happened, the buffer is then parsed. -/
def translateUsingYandexAPI (apiKey : String) (text : Text) (w : World) :
    Except JsonException Text × World :=
  if w.curlAvailable then
    let res := (w.transport (mkRequest apiKey text)).1
    let readBuffer := received (w.transport (mkRequest apiKey text)).2
    let w1 := w.emit (.httpPost (mkRequest apiKey text))
    (parseResponse readBuffer, if res ≠ 0 then w1.emit (.requestError res) else w1)
  else
    (parseResponse [], w)

/-! ## 5. The decorators -/

/-- The classes that implement `TextProcessor`, each decorator owning its component. -/
inductive TextProcessor where
  | BaseTranslator (apiKey : String)
  | LoggingDecorator (component : TextProcessor)
  | WordCountDecorator (component : TextProcessor)
  | SaveToFileDecorator (component : TextProcessor) (fileName : String)

/-- The function `SaveToFileDecorator::saveToFile`: when the file opens it is
overwritten with the text and a line is printed; when it does not, nothing happens. -/
def saveToFile (fileName : String) (text : Text) (w : World) : World :=
  if w.writable fileName then
    ((w.store fileName text).emit (.fileWrite fileName text)).emit (.saved fileName)
  else w

/-- The virtual function `process` of the four classes. An exception leaves a decorator
at the call of its component. -/
def TextProcessor.process : TextProcessor → Text → World → Except JsonException Text × World
  | .BaseTranslator apiKey, text, w => translateUsingYandexAPI apiKey text w
  | .LoggingDecorator component, text, w => component.process text (w.emit .logNotice)
  | .WordCountDecorator component, text, w =>
    component.process text (w.emit (.wordCount (countWords text)))
  | .SaveToFileDecorator component fileName, text, w =>
    match component.process text w with
    | (.ok translatedText, w1) => (.ok translatedText, saveToFile fileName translatedText w1)
    | (.error e, w1) => (.error e, w1)

/-! ## 6. The program -/

/-- The function `readTextFromFile`: the content of the file, or the empty text and a
line on `cerr` when it cannot be opened. -/
def readTextFromFile (fileName : String) (w : World) : Text × World :=
  match w.files fileName with
  | none => ([], w.emit (.openError fileName))
  | some content => (content, w)

/-- The chain `main` builds, innermost first: the translator, wrapped for logging,
wrapped for word counting, wrapped for saving to `output.txt`. -/
def mainChain (apiKey : String) : TextProcessor :=
  .SaveToFileDecorator (.WordCountDecorator (.LoggingDecorator (.BaseTranslator apiKey)))
    "output.txt"

/-- How a run ends: `main` returns a status, or an exception nobody catches ends the
process. -/
inductive Outcome where
  | exit (status : Nat)
  | uncaught (e : JsonException)
  deriving DecidableEq

/-- The function `main`, with the empty API key of the source. -/
def main (w : World) : Outcome × World :=
  match readTextFromFile "input.txt" w with
  | (text, w1) =>
    if text.isEmpty then (.exit 1, w1)
    else
      match (mainChain "").process text w1 with
      | (.ok translatedText, w2) => (.exit 0, w2.emit (.result translatedText))
      | (.error e, w2) => (.uncaught e, w2)

/-! ## 7. Concrete inputs -/

/-- The mock response of the spec. -/
def mockResponse : Text := "\x7b\"translations\":[\x7b\"text\":\"hello\"\x7d]\x7d".toList

/-- A run in which `input.txt` holds `hola mundo`, `output.txt` holds `old` and can be
written, and the transfer succeeds with the mock response, delivered in two pieces. -/
def mockWorld : World :=
  ⟨fun n => if n = "input.txt" then some "hola mundo".toList
      else if n = "output.txt" then some "old".toList else none,
    fun _ => true, true, fun _ => (0, [mockResponse.take 10, mockResponse.drop 10]), []⟩

/-- The run of `mockWorld` with an `output.txt` that cannot be opened. -/
def readOnlyWorld : World :=
  ⟨mockWorld.files, fun _ => false, true, mockWorld.transport, []⟩

/-- A run in which the transfer fails with `CURLE_COULDNT_CONNECT` (7) and delivers
nothing. -/
def offlineWorld : World :=
  ⟨mockWorld.files, fun _ => true, true, fun _ => (7, []), []⟩

/-- A run in which the server answers with something that is not the expected JSON. -/
def garbledWorld : World :=
  ⟨mockWorld.files, fun _ => true, true, fun _ => (0, ["<html>".toList]), []⟩

/-- A run without `input.txt`. -/
def noInputWorld : World :=
  ⟨fun _ => none, fun _ => true, true, fun _ => (0, [mockResponse]), []⟩

/-- A run with an empty `input.txt`. -/
def emptyInputWorld : World :=
  ⟨fun n => if n = "input.txt" then some [] else none, fun _ => true, true,
    fun _ => (0, [mockResponse]), []⟩

/-! ## 8. Auxiliary notions of the proofs -/

/-- The characters of an escape read so far that have not produced output yet. -/
def Scan.credit : Scan → Nat
  | .plain => 0
  | .continuation _ => 0
  | .escape => 1
  | .hex left _ none => 6 - left
  | .hex left _ (some _) => 12 - left
  | .lowBackslash _ => 6
  | .lowU _ => 7

/-- The states in which every character read is copied to the output as it is. -/
def Scan.verbatim : Scan → Bool
  | .plain => true
  | .continuation _ => true
  | _ => false

/-- The bytes a multi-byte sequence still expects are not ASCII. -/
def Scan.wf : Scan → Prop
  | .continuation rs => ∀ r ∈ rs, 0x80 ≤ r.1
  | _ => True

/-- How the decoded string `s` of a literal relates to the characters `body` read for
it: in a verbatim state it is no longer than them, and of the same length only when
they were all copied; inside an escape it is shorter once the characters already read
are counted. -/
def ScanBalance (st : Scan) (s body : Text) : Prop :=
  (st.verbatim = true → s.length ≤ body.length
      ∧ (s.length = body.length → s = body ∧ ∀ c ∈ body, c ≠ '"' ∧ c ≠ '\\'))
  ∧ (st.verbatim = false → s.length < body.length + st.credit)

/-- A value that is an array of one string `s` has been read from at least
`s.length + 4` characters. -/
def Fits (n : Nat) (v : Json) : Prop :=
  ∀ s, v = .array [.string s] → s.length + 4 ≤ n

/-- The members the reader has stored when it reaches the value of `texts`. -/
def languageMember : List (Text × Json) := [(languageKey, .string languageCode)]

/-- The world in which the client of `mainChain` runs: the two decorators before it
have printed their lines. -/
def clientWorld (text : Text) (w : World) : World :=
  (w.emit (.wordCount (countWords text))).emit .logNotice

/-! ## Theorems: the word counter -/

/-- Incrementing a wrapped counter is wrapping the incremented count. -/
theorem wrapInt_wrapInt_succ (x : Int) : wrapInt (wrapInt x + 1) = wrapInt (x + 1) := by
  unfold wrapInt
  omega

/-- The loop of `countWords` from any state: the counter has grown, up to the wrap, by the
word starts of the rest of the text. -/
theorem foldl_countStep (text : Text) : ∀ (x : Int) (b : Bool),
    (text.foldl countStep (wrapInt x, b)).1 = wrapInt (x + startsAfter (!b) text) := by
  induction text with
  | nil => intro x b; simp [startsAfter]
  | cons c cs ih =>
    intro x b
    simp only [List.foldl_cons, countStep, startsAfter]
    cases hc : isspace c
    · cases b
      · simp only [Bool.not_false, Bool.false_eq_true, if_false, if_true, Bool.and_self, 
          wrapInt_wrapInt_succ]
        rw [ih]; simp; congr 1; omega
      · simp [ih]
    · simp [ih]

/-- The count by positions and the count by recursion agree. -/
theorem startsFrom_eq (text : Text) : ∀ p, startsFrom p text = startsAfter p text := by
  induction text with
  | nil => intro p; rfl
  | cons c cs ih =>
    intro p
    unfold startsFrom
    rw [List.length_cons, List.range_succ_eq_map, List.filter_cons, List.filter_map,
      startsAfter, ← ih (isspace c)]
    have hfun : ((fun i => !isspace ((c :: cs).getD i ' ') &&
          (if i = 0 then p else isspace ((c :: cs).getD (i - 1) ' '))) ∘ Nat.succ)
        = (fun i => !isspace (cs.getD i ' ') &&
          (if i = 0 then isspace c else isspace (cs.getD (i - 1) ' '))) := by
      funext i
      cases i with
      | zero => simp
      | succ j => simp
    rw [hfun]
    unfold startsFrom
    by_cases h : (!isspace c && p) = true
    · simp [h, Nat.add_comm]
    · simp [h]

/-- The number of maximal runs, computed along the text. -/
theorem wordStarts_eq (text : Text) : wordStarts text = startsAfter true text := by
  rw [← startsFrom_eq]
  unfold wordStarts startsFrom isWordStart
  congr 2
  funext i
  by_cases h : i = 0
  · simp [h]
  · have h0 : (i == 0) = false := by simpa using h
    simp [h, h0]

/-- What `countWords` returns for any text: the number of its maximal runs of
non-whitespace characters, reduced into the range of `int`. -/
theorem countWords_eq_wrap (text : Text) : countWords text = wrapInt (wordStarts text) := by
  have h := foldl_countStep text 0 false
  have h0 : wrapInt 0 = 0 := by decide
  rw [h0] at h
  unfold countWords
  rw [h, wordStarts_eq]
  simp

/-- Word starts of a text made of two parts. -/
theorem startsAfter_append (a b : Text) : ∀ p,
    startsAfter p (a ++ b) = startsAfter p a + startsAfter (endsInSpace p a) b := by
  induction a with
  | nil => intro p; simp [startsAfter, endsInSpace]
  | cons c cs ih =>
    intro p
    rw [List.cons_append, startsAfter, startsAfter, endsInSpace, ih, Nat.add_assoc]

/-- The text `a`, space written `n` times has `n` word starts. -/
theorem startsAfter_repeat (n : Nat) :
    startsAfter true (repeatText n ['a', ' ']) = n := by
  induction n with
  | zero => rfl
  | succ k ih =>
    simp only [repeatText]
    rw [startsAfter_append]
    have h1 : endsInSpace true ['a', ' '] = true := by decide
    have h2 : startsAfter true ['a', ' '] = 1 := by decide
    rw [h1, ih, h2]; omega

/-- Inserted whitespace starts no word. -/
theorem startsAfter_inserted {s t : Text} (h : WsInserted s t) :
    startsAfter true t = startsAfter true s := by
  induction h with
  | same => rfl
  | atStart c hc _ ih => simp [startsAfter, hc, ih]
  | atEnd c hc _ ih => simp [startsAfter_append, startsAfter, hc, ih]
  | beforeSpace a b c d hc hd _ ih =>
    rw [← ih]; simp [startsAfter_append, startsAfter, hc, hd]
  | afterSpace a b c d hc hd _ ih =>
    rw [← ih]; simp [startsAfter_append, startsAfter, hc, hd]

/-- Two word starts are at least two characters apart. -/
theorem startsAfter_le_length (text : Text) : ∀ p : Bool,
    2 * startsAfter p text ≤ text.length + (if p then 1 else 0) := by
  induction text with
  | nil => intro p; simp [startsAfter]
  | cons c cs ih =>
    intro p
    have h1 := ih true
    have h2 := ih false
    simp only [startsAfter, List.length_cons]
    cases hc : isspace c <;> cases p <;> simp at h1 h2 ⊢ <;> omega

/-- A text shorter than 2^32 - 1 characters has fewer than 2^31 maximal runs of
non-whitespace characters. -/
theorem wordStarts_lt_of_length (text : Text) (h : text.length < 4294967295) :
    wordStarts text < 2147483648 := by
  have := startsAfter_le_length text true
  rw [wordStarts_eq]
  simp only [if_true] at this
  omega

/-- C1, counterexample. The text made of `a` and a space written 2^31 times has 2^31
maximal runs of non-whitespace characters, one more than an `int` can hold: the counter
has wrapped to -2^31 when `countWords` returns. -/
theorem countWords_overflow :
    wordStarts (repeatText 2147483648 ['a', ' ']) = 2147483648
    ∧ countWords (repeatText 2147483648 ['a', ' ']) = -2147483648 := by
  refine ⟨by rw [wordStarts_eq, startsAfter_repeat], ?_⟩
  rw [countWords_eq_wrap, wordStarts_eq, startsAfter_repeat]
  decide

/-- C1, as amended. For every text with fewer than 2^31 maximal runs of non-whitespace
characters, `countWords` returns the number of those runs: the number of positions `i`
whose character is not whitespace and for which `i = 0` or character `i - 1` is
whitespace. -/
theorem countWords_eq_wordStarts (text : Text) (h : wordStarts text < 2147483648) :
    countWords text = (wordStarts text : Int) := by
  rw [countWords_eq_wrap]
  unfold wrapInt
  omega

/-- C1, an instance: the text `  one two  three` has three runs and counts 3. -/
theorem countWords_eq_wordStarts_example :
    wordStarts "  one two  three".toList = 3 ∧ countWords "  one two  three".toList = 3 :=
  ⟨by decide, countWords_eq_wordStarts "  one two  three".toList (by decide)⟩

/-- C2. Whitespace inserted at the start, at the end or next to whitespace that is
already there, any number of times, leaves the word count unchanged; `a  b` and `a b`
count 2, and so does `  a b  `. -/
theorem countWords_whitespace_invariant (s t : Text) (h : WsInserted s t) :
    countWords t = countWords s
    ∧ countWords "a  b".toList = 2 ∧ countWords "a b".toList = 2
    ∧ countWords "  a b  ".toList = 2 := by
  refine ⟨?_, by decide, by decide, by decide⟩
  rw [countWords_eq_wrap, countWords_eq_wrap, wordStarts_eq, wordStarts_eq,
    startsAfter_inserted h]

/-- C2, an instance: `  a  b ` is `a b` with two spaces put in front, one next to the
space in the middle and one at the end, and both texts count the same. -/
theorem countWords_whitespace_invariant_example :
    WsInserted "a b".toList "  a  b ".toList
    ∧ countWords "  a  b ".toList = countWords "a b".toList :=
  have h : WsInserted "a b".toList "  a  b ".toList :=
    .atStart ' ' (by decide) (.atStart ' ' (by decide)
      (.atEnd (t := "a  b".toList) ' ' (by decide)
        (.beforeSpace ['a'] ['b'] ' ' ' ' (by decide) (by decide) (.same _))))
  ⟨h, (countWords_whitespace_invariant _ _ h).1⟩


/-! ## Theorems: the JSON reader -/

/-- A code point takes at most four bytes. -/
theorem utf8Encode_length (cp : Nat) : (utf8Encode cp).length ≤ 4 := by
  unfold utf8Encode
  split_ifs <;> simp

/-- Between the bytes of a multi-byte sequence the scanner copies. -/
theorem afterContinuation_verbatim (rs : List (Nat × Nat)) :
    (afterContinuation rs).verbatim = true := by
  cases rs <;> rfl

/-- The ranges still expected stay outside ASCII. -/
theorem afterContinuation_wf (rs : List (Nat × Nat)) (h : ∀ r ∈ rs, 0x80 ≤ r.1) :
    (afterContinuation rs).wf := by
  cases rs with
  | nil => trivial
  | cons r rs => exact h

/-- The bytes after a lead byte are not ASCII. -/
theorem utf8Tail_wf (lead : Nat) (rs : List (Nat × Nat)) (h : utf8Tail lead = some rs) :
    ∀ r ∈ rs, 0x80 ≤ r.1 := by
  unfold utf8Tail at h
  split_ifs at h <;> simp at h <;> subst h <;> simp

/-- The end of a `\u` escape writes at most four bytes, and none when a low surrogate
is still to come. -/
theorem finishHex_spec (cp : Nat) (high : Option Nat) (st1 : Scan) (out : Text)
    (h : finishHex cp high = some (st1, out)) :
    st1.wf ∧ out.length ≤ 4 ∧ (st1.verbatim = false → out = [] ∧ st1.credit ≤ 6) := by
  cases high with
  | some hi =>
    simp only [finishHex] at h
    split_ifs at h
    simp only [Option.some.injEq, Prod.mk.injEq] at h
    obtain ⟨rfl, rfl⟩ := h
    exact ⟨trivial, utf8Encode_length _, by simp [Scan.verbatim]⟩
  | none =>
    simp only [finishHex] at h
    split_ifs at h
    · simp only [Option.some.injEq, Prod.mk.injEq] at h
      obtain ⟨rfl, rfl⟩ := h
      exact ⟨trivial, by simp, by simp [Scan.credit]⟩
    · simp only [Option.some.injEq, Prod.mk.injEq] at h
      obtain ⟨rfl, rfl⟩ := h
      exact ⟨trivial, utf8Encode_length _, by simp [Scan.verbatim]⟩

/-- What one step of the scanner does to the balance between input and output. -/
theorem scanStep_spec (st st1 : Scan) (c : Char) (out : Text) (hwf : st.wf)
    (hq : ¬(st.isPlain = true ∧ c = '"')) (h : scanStep st c = some (st1, out)) :
    st1.wf
    ∧ (st.verbatim = true → st1.verbatim = true → out = [c] ∧ c ≠ '"' ∧ c ≠ '\\')
    ∧ (st.verbatim = true → st1.verbatim = false → out = [] ∧ st1.credit ≤ 1)
    ∧ (st.verbatim = false → st1.verbatim = false → out = [] ∧ st1.credit ≤ st.credit + 1)
    ∧ (st.verbatim = false → st1.verbatim = true → out.length ≤ st.credit) := by
  cases st with
  | plain =>
    have hq1 : c ≠ '"' := fun hc => hq ⟨rfl, hc⟩
    simp only [scanStep] at h
    split_ifs at h with h1 h2 h3
    · simp only [Option.some.injEq, Prod.mk.injEq] at h
      obtain ⟨rfl, rfl⟩ := h
      simp [Scan.wf, Scan.verbatim, Scan.credit]
    · simp only [Option.some.injEq, Prod.mk.injEq] at h
      obtain ⟨rfl, rfl⟩ := h
      simp [Scan.wf, Scan.verbatim, hq1, h1]
    · cases ht : utf8Tail c.toNat with
      | none => simp [ht] at h
      | some rs =>
        simp only [ht, Option.map_some', Option.some.injEq, Prod.mk.injEq] at h
        obtain ⟨rfl, rfl⟩ := h
        refine ⟨afterContinuation_wf _ (utf8Tail_wf _ _ ht), ?_, ?_, ?_, ?_⟩
        · intro _ _; exact ⟨rfl, hq1, h1⟩
        · intro _ hv; rw [afterContinuation_verbatim] at hv; cases hv
        · intro hv; cases hv
        · intro hv; cases hv
  | escape =>
    simp only [scanStep] at h
    split_ifs at h with h1
    · simp only [Option.some.injEq, Prod.mk.injEq] at h
      obtain ⟨rfl, rfl⟩ := h
      simp [Scan.wf, Scan.verbatim, Scan.credit]
    · cases hs : simpleEscape c with
      | none => simp [hs] at h
      | some d =>
        simp only [hs, Option.map_some', Option.some.injEq, Prod.mk.injEq] at h
        obtain ⟨rfl, rfl⟩ := h
        simp [Scan.wf, Scan.verbatim, Scan.credit]
  | hex left value high =>
    simp only [scanStep] at h
    cases hd : hexValue c with
    | none => simp [hd] at h
    | some d =>
      simp only [hd] at h
      split_ifs at h with h1
      · obtain ⟨hw, hl, hv⟩ := finishHex_spec _ _ _ _ h
        have hleft : 5 ≤ (Scan.hex left value high).credit := by
          cases high <;> simp only [Scan.credit] <;> omega
        refine ⟨hw, ?_, ?_, ?_, ?_⟩
        · intro hv0; cases hv0
        · intro hv0; cases hv0
        · intro _ hv1
          obtain ⟨ho, hcr⟩ := hv hv1
          exact ⟨ho, by omega⟩
        · intro _ _
          omega
      · simp only [Option.some.injEq, Prod.mk.injEq] at h
        obtain ⟨rfl, rfl⟩ := h
        refine ⟨trivial, ?_, ?_, ?_, ?_⟩
        · intro hv0; cases hv0
        · intro hv0; cases hv0
        · intro _ _
          refine ⟨rfl, ?_⟩
          cases high <;> simp only [Scan.credit] <;> omega
        · intro _ hv1; cases hv1
  | lowBackslash high =>
    simp only [scanStep] at h
    split_ifs at h with h1
    simp only [Option.some.injEq, Prod.mk.injEq] at h
    obtain ⟨rfl, rfl⟩ := h
    simp [Scan.wf, Scan.verbatim, Scan.credit]
  | lowU high =>
    simp only [scanStep] at h
    split_ifs at h with h1
    simp only [Option.some.injEq, Prod.mk.injEq] at h
    obtain ⟨rfl, rfl⟩ := h
    simp [Scan.wf, Scan.verbatim, Scan.credit]
  | continuation ranges =>
    cases ranges with
    | nil => simp [scanStep] at h
    | cons r rs =>
      obtain ⟨lo, hi⟩ := r
      simp only [scanStep] at h
      split_ifs at h with h1
      simp only [Option.some.injEq, Prod.mk.injEq] at h
      obtain ⟨rfl, rfl⟩ := h
      have hlo : 0x80 ≤ lo := hwf (lo, hi) (List.mem_cons_self _ _)
      have hrs : ∀ r ∈ rs, 0x80 ≤ r.1 := fun r hr => hwf r (List.mem_cons_of_mem _ hr)
      have hc1 : c ≠ '"' := by
        intro hc; subst hc
        have : ('"').toNat = 34 := by decide
        omega
      have hc2 : c ≠ '\\' := by
        intro hc; subst hc
        have : ('\\').toNat = 92 := by decide
        omega
      refine ⟨afterContinuation_wf _ hrs, ?_, ?_, ?_, ?_⟩
      · intro _ _; exact ⟨rfl, hc1, hc2⟩
      · intro _ hv; rw [afterContinuation_verbatim] at hv; cases hv
      · intro hv; cases hv
      · intro hv; cases hv

/-- The scanner, from any state: the input is the characters read, the closing quote and
the rest, and the decoded string is in balance with the characters read. -/
theorem scanString_spec (inp : Text) : ∀ (st : Scan) (s rest : Text), st.wf →
    scanString st inp = some (s, rest) →
    ∃ body, inp = body ++ '"' :: rest ∧ ScanBalance st s body := by
  induction inp with
  | nil => intro st s rest _ h; simp [scanString] at h
  | cons c inp1 ih =>
    intro st s rest hwf h
    simp only [scanString] at h
    by_cases hq : st.isPlain = true ∧ c = '"'
    · rw [if_pos hq] at h
      simp only [Option.some.injEq, Prod.mk.injEq] at h
      obtain ⟨rfl, rfl⟩ := h
      obtain ⟨hp, rfl⟩ := hq
      refine ⟨[], rfl, ?_, ?_⟩
      · intro _; exact ⟨Nat.le_refl _, fun _ => ⟨rfl, by simp⟩⟩
      · intro hv; cases st <;> simp [Scan.isPlain, Scan.verbatim] at hp hv
    · rw [if_neg hq] at h
      cases hstep : scanStep st c with
      | none => simp [hstep] at h
      | some r =>
        obtain ⟨st1, out⟩ := r
        simp only [hstep] at h
        cases hrec : scanString st1 inp1 with
        | none => simp [hrec] at h
        | some r1 =>
          obtain ⟨s1, rest1⟩ := r1
          simp only [hrec, Option.some.injEq, Prod.mk.injEq] at h
          obtain ⟨rfl, rfl⟩ := h
          obtain ⟨hwf1, hvv, hve, hee, hev⟩ := scanStep_spec st st1 c out hwf hq hstep
          obtain ⟨body1, hinp, hb1, hb2⟩ := ih st1 s1 rest1 hwf1 hrec
          refine ⟨c :: body1, by rw [hinp]; rfl, ?_, ?_⟩
          · intro hv
            cases hv1 : st1.verbatim with
            | true =>
              obtain ⟨rfl, hc1, hc2⟩ := hvv hv hv1
              obtain ⟨hle, heq⟩ := hb1 hv1
              refine ⟨by simpa using hle, ?_⟩
              intro hlen
              have hlen1 : s1.length = body1.length := by simpa using hlen
              obtain ⟨rfl, hall⟩ := heq hlen1
              refine ⟨rfl, ?_⟩
              intro d hd
              rcases List.mem_cons.1 hd with rfl | hd
              · exact ⟨hc1, hc2⟩
              · exact hall d hd
            | false =>
              obtain ⟨rfl, hcr⟩ := hve hv hv1
              have hlt := hb2 hv1
              simp only [List.nil_append, List.length_cons]
              exact ⟨by omega, fun hlen => by omega⟩
          · intro hv
            cases hv1 : st1.verbatim with
            | true =>
              have hol := hev hv hv1
              obtain ⟨hle, _⟩ := hb1 hv1
              simp only [List.length_append, List.length_cons]
              omega
            | false =>
              obtain ⟨rfl, hcr⟩ := hee hv hv1
              have hlt := hb2 hv1
              simp only [List.nil_append, List.length_cons]
              omega

/-- A literal that decodes to the very characters between its quotes holds neither a
quote nor a backslash. -/
theorem scanString_plain_spec (inp s rest : Text)
    (h : scanString .plain inp = some (s, rest)) :
    ∃ body, inp = body ++ '"' :: rest ∧ s.length ≤ body.length
      ∧ (s.length = body.length → s = body ∧ ∀ c ∈ body, c ≠ '"' ∧ c ≠ '\\') := by
  obtain ⟨body, hinp, hb, _⟩ := scanString_spec inp .plain s rest trivial h
  exact ⟨body, hinp, hb rfl⟩

/-- Skipping whitespace does not lengthen the input. -/
theorem skipSpace_length_le (s : Text) : (skipSpace s).length ≤ s.length := by
  induction s with
  | nil => simp [skipSpace]
  | cons c cs ih =>
    simp only [skipSpace]
    split_ifs
    · simp only [List.length_cons]; omega
    · exact Nat.le_refl _

/-- An input with a character after its whitespace is longer than what follows that
character. -/
theorem skipSpace_cons_length {s : Text} {c : Char} {r : Text} (h : skipSpace s = c :: r) :
    r.length + 1 ≤ s.length := by
  have := skipSpace_length_le s
  rw [h] at this
  simpa using this

/-- A string literal takes at least its decoded length and its closing quote from the
input. -/
theorem scanString_rest_length {inp s rest : Text}
    (h : scanString .plain inp = some (s, rest)) : s.length + rest.length + 1 ≤ inp.length := by
  obtain ⟨body, rfl, hle, _⟩ := scanString_plain_spec inp s rest h
  simp only [List.length_append, List.length_cons]
  omega

/-- A literal does not lengthen the input. -/
theorem stripLiteral_length (l : Text) : ∀ (inp r : Text), stripLiteral l inp = some r →
    r.length ≤ inp.length := by
  induction l with
  | nil => intro inp r h; simp [stripLiteral] at h; subst h; exact Nat.le_refl _
  | cons x xs ih =>
    intro inp r h
    cases inp with
    | nil => simp [stripLiteral] at h
    | cons c cs =>
      simp only [stripLiteral] at h
      split_ifs at h
      have := ih cs r h
      simp only [List.length_cons]; omega

/-- Digits taken do not lengthen the input. -/
theorem takeDigits_length (s : Text) : (takeDigits s).2.length ≤ s.length := by
  induction s with
  | nil => simp [takeDigits]
  | cons c cs ih =>
    simp only [takeDigits]
    split_ifs
    · simp only [List.length_cons]; omega
    · exact Nat.le_refl _

/-- One or more digits do not lengthen the input. -/
theorem scanDigits1_length {inp : Text} {r : Text × Text} (h : scanDigits1 inp = some r) :
    r.2.length ≤ inp.length := by
  unfold scanDigits1 at h
  split at h
  · cases h
  · simp only [Option.some.injEq] at h
    subst h
    exact takeDigits_length inp

/-- An exponent does not lengthen the input. -/
theorem scanExponent_length {inp : Text} {r : Text × Text} (h : scanExponent inp = some r) :
    r.2.length ≤ inp.length := by
  unfold scanExponent at h
  split at h
  · split_ifs at h
    · split at h
      · split_ifs at h
        · obtain ⟨x, hd, rfl⟩ := Option.map_eq_some'.1 h
          have := scanDigits1_length hd
          simp only [List.length_cons]; omega
        · obtain ⟨x, hd, rfl⟩ := Option.map_eq_some'.1 h
          have := scanDigits1_length hd
          simp only [List.length_cons] at this ⊢; omega
      · cases h
    · simp only [Option.some.injEq] at h; subst h; exact Nat.le_refl _
  · simp only [Option.some.injEq] at h; subst h; exact Nat.le_refl _

/-- A fraction does not lengthen the input. -/
theorem scanFraction_length {inp : Text} {r : Text × Text} (h : scanFraction inp = some r) :
    r.2.length ≤ inp.length := by
  unfold scanFraction at h
  split at h
  · obtain ⟨x, hd, rfl⟩ := Option.map_eq_some'.1 h
    have := scanDigits1_length hd
    simp only [List.length_cons]; omega
  · simp only [Option.some.injEq] at h; subst h; exact Nat.le_refl _

/-- An integer part does not lengthen the input. -/
theorem scanInteger_length {inp : Text} {r : Text × Text} (h : scanInteger inp = some r) :
    r.2.length ≤ inp.length := by
  unfold scanInteger at h
  split at h
  · simp only [Option.some.injEq] at h; subst h; simp
  · exact scanDigits1_length h

/-- An unsigned number does not lengthen the input. -/
theorem scanUnsigned_length {inp : Text} {r : Text × Text} (h : scanUnsigned inp = some r) :
    r.2.length ≤ inp.length := by
  unfold scanUnsigned at h
  cases h1 : scanInteger inp with
  | none => simp [h1] at h
  | some x1 =>
    obtain ⟨i, r1⟩ := x1
    simp only [h1] at h
    cases h2 : scanFraction r1 with
    | none => simp [h2] at h
    | some x2 =>
      obtain ⟨f, r2⟩ := x2
      simp only [h2] at h
      cases h3 : scanExponent r2 with
      | none => simp [h3] at h
      | some x3 =>
        obtain ⟨e, r3⟩ := x3
        simp only [h3, Option.some.injEq] at h
        subst h
        have a1 := scanInteger_length h1
        have a2 := scanFraction_length h2
        have a3 := scanExponent_length h3
        simp only at a1 a2 a3 ⊢
        omega

/-- A number does not lengthen the input. -/
theorem scanNumber_length {inp : Text} {r : Text × Text} (h : scanNumber inp = some r) :
    r.2.length ≤ inp.length := by
  unfold scanNumber at h
  split at h
  · obtain ⟨x, hd, rfl⟩ := Option.map_eq_some'.1 h
    have := scanUnsigned_length hd
    simp only [List.length_cons]; omega
  · exact scanUnsigned_length h


/-- The reader never returns more input than it was given. -/
theorem parse_rest_length (fuel : Nat) :
    (∀ inp v rest, parseValue fuel inp = some (v, rest) → rest.length ≤ inp.length)
    ∧ (∀ inp vs rest, parseElements fuel inp = some (vs, rest) → rest.length ≤ inp.length)
    ∧ (∀ inp acc ms rest, parseMembers fuel inp acc = some (ms, rest) →
        rest.length ≤ inp.length) := by
  induction fuel with
  | zero =>
    refine ⟨?_, ?_, ?_⟩
    · intro inp v rest h; simp [parseValue] at h
    · intro inp vs rest h; simp [parseElements] at h
    · intro inp acc ms rest h; simp [parseMembers] at h
  | succ f ih =>
    obtain ⟨ihV, ihE, ihM⟩ := ih
    refine ⟨?_, ?_, ?_⟩
    · intro inp v rest h
      rw [parseValue] at h
      split at h
      · cases h
      · rename_i c rest0 hs
        have h0 := skipSpace_cons_length hs
        split_ifs at h
        · split at h
          · cases h
          · rename_i d rest1 hs1
            have h1 := skipSpace_cons_length hs1
            split_ifs at h
            · simp only [Option.some.injEq, Prod.mk.injEq] at h
              obtain ⟨_, rfl⟩ := h
              omega
            · obtain ⟨x, hx, hx2⟩ := Option.map_eq_some'.1 h
              simp only [Prod.mk.injEq] at hx2
              obtain ⟨_, rfl⟩ := hx2
              have := ihM _ _ _ _ (show parseMembers f (d :: rest1) [] = some (x.1, x.2) from hx)
              simp only [List.length_cons] at this
              omega
        · split at h
          · cases h
          · rename_i d rest1 hs1
            have h1 := skipSpace_cons_length hs1
            split_ifs at h
            · simp only [Option.some.injEq, Prod.mk.injEq] at h
              obtain ⟨_, rfl⟩ := h
              omega
            · obtain ⟨x, hx, hx2⟩ := Option.map_eq_some'.1 h
              simp only [Prod.mk.injEq] at hx2
              obtain ⟨_, rfl⟩ := hx2
              have := ihE _ _ _ (show parseElements f (d :: rest1) = some (x.1, x.2) from hx)
              simp only [List.length_cons] at this
              omega
        · obtain ⟨x, hx, hx2⟩ := Option.map_eq_some'.1 h
          simp only [Prod.mk.injEq] at hx2
          obtain ⟨_, rfl⟩ := hx2
          have := scanString_rest_length (show scanString .plain rest0 = some (x.1, x.2) from hx)
          omega
        · obtain ⟨x, hx, hx2⟩ := Option.map_eq_some'.1 h
          simp only [Prod.mk.injEq] at hx2
          obtain ⟨_, rfl⟩ := hx2
          have := stripLiteral_length _ _ _ hx
          omega
        · obtain ⟨x, hx, hx2⟩ := Option.map_eq_some'.1 h
          simp only [Prod.mk.injEq] at hx2
          obtain ⟨_, rfl⟩ := hx2
          have := stripLiteral_length _ _ _ hx
          omega
        · obtain ⟨x, hx, hx2⟩ := Option.map_eq_some'.1 h
          simp only [Prod.mk.injEq] at hx2
          obtain ⟨_, rfl⟩ := hx2
          have := stripLiteral_length _ _ _ hx
          omega
        · obtain ⟨x, hx, hx2⟩ := Option.map_eq_some'.1 h
          simp only [Prod.mk.injEq] at hx2
          obtain ⟨_, rfl⟩ := hx2
          have := scanNumber_length hx
          simp only [List.length_cons] at this
          omega
    · intro inp vs rest h
      rw [parseElements] at h
      split at h
      · cases h
      · rename_i v r1 hv
        have h0 := ihV _ _ _ hv
        split at h
        · cases h
        · rename_i d rest1 hs1
          have h1 := skipSpace_cons_length hs1
          split_ifs at h
          · obtain ⟨x, hx, hx2⟩ := Option.map_eq_some'.1 h
            simp only [Prod.mk.injEq] at hx2
            obtain ⟨_, rfl⟩ := hx2
            have := ihE _ _ _ (show parseElements f rest1 = some (x.1, x.2) from hx)
            omega
          · simp only [Option.some.injEq, Prod.mk.injEq] at h
            obtain ⟨_, rfl⟩ := h
            omega
    · intro inp acc ms rest h
      rw [parseMembers] at h
      split at h
      · cases h
      · rename_i q rest0 hs
        have h0 := skipSpace_cons_length hs
        split_ifs at h
        split at h
        · cases h
        · rename_i key rest1 hk
          have hk1 := scanString_rest_length hk
          split at h
          · cases h
          · rename_i colon rest2 hs2
            have h2 := skipSpace_cons_length hs2
            split_ifs at h
            split at h
            · cases h
            · rename_i v rest3 hv
              have h3 := ihV _ _ _ hv
              split at h
              · cases h
              · rename_i d rest4 hs4
                have h4 := skipSpace_cons_length hs4
                split_ifs at h
                · have := ihM _ _ _ _ h
                  omega
                · simp only [Option.some.injEq, Prod.mk.injEq] at h
                  obtain ⟨_, rfl⟩ := h
                  omega


/-- A value that fits `n` characters fits more. -/
theorem Fits.mono {n m : Nat} {v : Json} (h : Fits n v) (hnm : n ≤ m) : Fits m v :=
  fun s hs => Nat.le_trans (h s hs) hnm

/-- How `parseElements` reaches a result: a value, then a comma and further elements, or
the closing bracket. -/
theorem parseElements_inv {f : Nat} {inp : Text} {es : List Json} {rest : Text}
    (h : parseElements f inp = some (es, rest)) :
    ∃ g v r1 d rest1, f = g + 1 ∧ parseValue g inp = some (v, r1) ∧ skipSpace r1 = d :: rest1
      ∧ ((d = ',' ∧ ∃ more, parseElements g rest1 = some (more, rest) ∧ es = v :: more)
          ∨ (d = ']' ∧ es = [v] ∧ rest = rest1)) := by
  cases f with
  | zero => simp [parseElements] at h
  | succ g =>
    rw [parseElements] at h
    split at h
    · cases h
    · rename_i v r1 hv
      split at h
      · cases h
      · rename_i d rest1 hs1
        split_ifs at h with h1 h2
        · obtain ⟨x, hx, hx2⟩ := Option.map_eq_some'.1 h
          simp only [Prod.mk.injEq] at hx2
          obtain ⟨rfl, rfl⟩ := hx2
          exact ⟨g, v, r1, d, rest1, rfl, hv, hs1, Or.inl ⟨h1, x.1, hx, rfl⟩⟩
        · simp only [Option.some.injEq, Prod.mk.injEq] at h
          obtain ⟨rfl, rfl⟩ := h
          exact ⟨g, v, r1, d, rest1, rfl, hv, hs1, Or.inr ⟨h2, rfl, rfl⟩⟩

/-- The elements read by `parseElements` are never none at all. -/
theorem parseElements_ne_nil {f : Nat} {inp : Text} {rest : Text} :
    parseElements f inp ≠ some ([], rest) := by
  intro h
  obtain ⟨g, v, r1, d, rest1, _, _, _, hcase⟩ := parseElements_inv h
  rcases hcase with ⟨_, more, _, hes⟩ | ⟨_, hes, _⟩ <;> cases hes

/-- A value that is a string was read by the scanner of string literals. -/
theorem parseValue_string_inv {f : Nat} {inp s rest : Text}
    (h : parseValue f inp = some (.string s, rest)) :
    ∃ r, skipSpace inp = '"' :: r ∧ scanString .plain r = some (s, rest) := by
  cases f with
  | zero => simp [parseValue] at h
  | succ g =>
    rw [parseValue] at h
    split at h
    · cases h
    · rename_i c rest0 hs
      split_ifs at h with h1 h2 h3 h4 h5 h6
      · split at h
        · cases h
        · split_ifs at h
          · cases h
          · obtain ⟨x, _, hx2⟩ := Option.map_eq_some'.1 h
            cases hx2
      · split at h
        · cases h
        · split_ifs at h
          · cases h
          · obtain ⟨x, _, hx2⟩ := Option.map_eq_some'.1 h
            cases hx2
      · obtain ⟨x, hx, hx2⟩ := Option.map_eq_some'.1 h
        simp only [Prod.mk.injEq, Json.string.injEq] at hx2
        obtain ⟨rfl, rfl⟩ := hx2
        subst h3
        exact ⟨rest0, hs, hx⟩
      · obtain ⟨x, _, hx2⟩ := Option.map_eq_some'.1 h
        cases hx2
      · obtain ⟨x, _, hx2⟩ := Option.map_eq_some'.1 h
        cases hx2
      · obtain ⟨x, _, hx2⟩ := Option.map_eq_some'.1 h
        cases hx2
      · obtain ⟨x, _, hx2⟩ := Option.map_eq_some'.1 h
        cases hx2

/-- A value that is a non-empty array was read by `parseElements` after an opening
bracket. -/
theorem parseValue_array_inv {f : Nat} {inp : Text} {es : List Json} {rest : Text}
    (h : parseValue f inp = some (.array es, rest)) (hne : es ≠ []) :
    ∃ g rest0 d rest1, f = g + 1 ∧ skipSpace inp = '[' :: rest0 ∧ skipSpace rest0 = d :: rest1
      ∧ parseElements g (d :: rest1) = some (es, rest) := by
  cases f with
  | zero => simp [parseValue] at h
  | succ g =>
    rw [parseValue] at h
    split at h
    · cases h
    · rename_i c rest0 hs
      split_ifs at h with h1 h2 h3 h4 h5 h6
      · split at h
        · cases h
        · split_ifs at h
          · cases h
          · obtain ⟨x, _, hx2⟩ := Option.map_eq_some'.1 h
            cases hx2
      · split at h
        · cases h
        · rename_i d rest1 hs1
          split_ifs at h
          · simp only [Option.some.injEq, Prod.mk.injEq, Json.array.injEq] at h
            exact absurd h.1.symm hne
          · obtain ⟨x, hx, hx2⟩ := Option.map_eq_some'.1 h
            simp only [Prod.mk.injEq, Json.array.injEq] at hx2
            obtain ⟨rfl, rfl⟩ := hx2
            subst h2
            exact ⟨g, rest0, d, rest1, rfl, hs, hs1, hx⟩
      · obtain ⟨x, _, hx2⟩ := Option.map_eq_some'.1 h
        cases hx2
      · obtain ⟨x, _, hx2⟩ := Option.map_eq_some'.1 h
        cases hx2
      · obtain ⟨x, _, hx2⟩ := Option.map_eq_some'.1 h
        cases hx2
      · obtain ⟨x, _, hx2⟩ := Option.map_eq_some'.1 h
        cases hx2
      · obtain ⟨x, _, hx2⟩ := Option.map_eq_some'.1 h
        cases hx2

/-- An array of one string is read from at least four characters more than the string
has. -/
theorem parseValue_fits {f : Nat} {inp : Text} {v : Json} {rest : Text}
    (h : parseValue f inp = some (v, rest)) : Fits inp.length v := by
  intro s hv
  subst hv
  obtain ⟨g, rest0, d, rest1, _, hs, hs1, he⟩ := parseValue_array_inv h (by simp)
  obtain ⟨g1, v, r1, d1, rest2, _, hv, hs2, hcase⟩ := parseElements_inv he
  have hv1 : v = .string s := by
    rcases hcase with ⟨_, more, _, hes⟩ | ⟨_, hes, _⟩
    · simp only [List.cons.injEq] at hes; exact hes.1.symm
    · simp only [List.cons.injEq, and_true] at hes; exact hes.symm
  subst hv1
  obtain ⟨r, hs3, hscan⟩ := parseValue_string_inv hv
  have a0 := skipSpace_cons_length hs
  have a1 := skipSpace_cons_length hs1
  have a2 := skipSpace_cons_length hs2
  have a3 := skipSpace_cons_length hs3
  have a4 := scanString_rest_length hscan
  simp only [List.length_cons] at a3
  omega

/-- A member after `setMember` was there before or is the one stored. -/
theorem mem_setMember {key : Text} {v : Json} {acc : List (Text × Json)} {p : Text × Json}
    (h : p ∈ setMember key v acc) : p ∈ acc ∨ p = (key, v) := by
  induction acc with
  | nil => simp [setMember] at h; exact Or.inr h
  | cons a as ih =>
    obtain ⟨k, x⟩ := a
    simp only [setMember] at h
    split_ifs at h with hk
    · rcases List.mem_cons.1 h with h | h
      · subst hk; exact Or.inr h
      · exact Or.inl (List.mem_cons_of_mem _ h)
    · rcases List.mem_cons.1 h with h | h
      · exact Or.inl (h ▸ List.mem_cons_self _ _)
      · rcases ih h with h | h
        · exact Or.inl (List.mem_cons_of_mem _ h)
        · exact Or.inr h

/-- Every member the reader returns was there before or was read from the input. -/
theorem parseMembers_fits (fuel : Nat) : ∀ (inp : Text) (acc ms : List (Text × Json))
    (rest : Text), parseMembers fuel inp acc = some (ms, rest) →
    ∀ p ∈ ms, p ∈ acc ∨ Fits inp.length p.2 := by
  induction fuel with
  | zero => intro inp acc ms rest h; simp [parseMembers] at h
  | succ f ih =>
    intro inp acc ms rest h p hp
    rw [parseMembers] at h
    split at h
    · cases h
    · rename_i q rest0 hs
      have h0 := skipSpace_cons_length hs
      split_ifs at h
      split at h
      · cases h
      · rename_i key rest1 hk
        have hk1 := scanString_rest_length hk
        split at h
        · cases h
        · rename_i colon rest2 hs2
          have h2 := skipSpace_cons_length hs2
          split_ifs at h
          split at h
          · cases h
          · rename_i v rest3 hv
            have h3 := (parse_rest_length f).1 _ _ _ hv
            have hfit : Fits inp.length v := (parseValue_fits hv).mono (by omega)
            split at h
            · cases h
            · rename_i d rest4 hs4
              have h4 := skipSpace_cons_length hs4
              have hset : ∀ p ∈ setMember key v acc, p ∈ acc ∨ Fits inp.length p.2 := by
                intro p hp
                rcases mem_setMember hp with hp | hp
                · exact Or.inl hp
                · subst hp; exact Or.inr hfit
              split_ifs at h
              · rcases ih _ _ _ _ h p hp with hp1 | hp1
                · exact hset p hp1
                · exact Or.inr (hp1.mono (by omega))
              · simp only [Option.some.injEq, Prod.mk.injEq] at h
                obtain ⟨rfl, rfl⟩ := h
                exact hset p hp

/-- One more unit of the bound never changes a result of the reader. -/
theorem parse_fuel_succ (n : Nat) :
    (∀ inp r, parseValue n inp = some r → parseValue (n + 1) inp = some r)
    ∧ (∀ inp r, parseElements n inp = some r → parseElements (n + 1) inp = some r)
    ∧ (∀ inp acc r, parseMembers n inp acc = some r →
        parseMembers (n + 1) inp acc = some r) := by
  induction n with
  | zero =>
    refine ⟨?_, ?_, ?_⟩
    · intro inp r h; simp [parseValue] at h
    · intro inp r h; simp [parseElements] at h
    · intro inp acc r h; simp [parseMembers] at h
  | succ n ih =>
    obtain ⟨ihV, ihE, ihM⟩ := ih
    refine ⟨?_, ?_, ?_⟩
    · intro inp r h
      rw [parseValue] at h ⊢
      cases hs : skipSpace inp with
      | nil => simp [hs] at h
      | cons c rest0 =>
        simp only [hs] at h ⊢
        by_cases h1 : c = '{'
        · simp only [h1, if_true] at h ⊢
          cases hs1 : skipSpace rest0 with
          | nil => simp [hs1] at h
          | cons d rest1 =>
            simp only [hs1] at h ⊢
            by_cases h2 : d = '}'
            · simpa only [h2, if_true] using h
            · simp only [h2, if_false] at h ⊢
              obtain ⟨x, hx, hx2⟩ := Option.map_eq_some'.1 h
              rw [ihM _ _ _ hx]
              exact congrArg some hx2
        · simp only [h1, if_false] at h ⊢
          by_cases h3 : c = '['
          · simp only [h3, if_true] at h ⊢
            cases hs1 : skipSpace rest0 with
            | nil => simp [hs1] at h
            | cons d rest1 =>
              simp only [hs1] at h ⊢
              by_cases h2 : d = ']'
              · simpa only [h2, if_true] using h
              · simp only [h2, if_false] at h ⊢
                obtain ⟨x, hx, hx2⟩ := Option.map_eq_some'.1 h
                rw [ihE _ _ hx]
                exact congrArg some hx2
          · simpa only [h3, if_false] using h
    · intro inp r h
      rw [parseElements] at h ⊢
      cases hv : parseValue n inp with
      | none => simp [hv] at h
      | some x =>
        obtain ⟨v, rest⟩ := x
        rw [ihV _ _ hv]
        simp only [hv] at h ⊢
        cases hs1 : skipSpace rest with
        | nil => simp [hs1] at h
        | cons d rest1 =>
          simp only [hs1] at h ⊢
          by_cases h2 : d = ','
          · simp only [h2, if_true] at h ⊢
            obtain ⟨x, hx, hx2⟩ := Option.map_eq_some'.1 h
            rw [ihE _ _ hx]
            exact congrArg some hx2
          · simpa only [h2, if_false] using h
    · intro inp acc r h
      rw [parseMembers] at h ⊢
      cases hs : skipSpace inp with
      | nil => simp [hs] at h
      | cons q rest0 =>
        simp only [hs] at h ⊢
        by_cases h1 : q = '"'
        · simp only [h1, if_true] at h ⊢
          cases hk : scanString .plain rest0 with
          | none => simp [hk] at h
          | some x =>
            obtain ⟨key, rest1⟩ := x
            simp only [hk] at h ⊢
            cases hs2 : skipSpace rest1 with
            | nil => simp [hs2] at h
            | cons colon rest2 =>
              simp only [hs2] at h ⊢
              by_cases h2 : colon = ':'
              · simp only [h2, if_true] at h ⊢
                cases hv : parseValue n rest2 with
                | none => simp [hv] at h
                | some y =>
                  obtain ⟨v, rest3⟩ := y
                  rw [ihV _ _ hv]
                  simp only [hv] at h ⊢
                  cases hs4 : skipSpace rest3 with
                  | nil => simp [hs4] at h
                  | cons d rest4 =>
                    simp only [hs4] at h ⊢
                    by_cases h3 : d = ','
                    · simp only [h3, if_true] at h ⊢
                      exact ihM _ _ _ h
                    · simpa only [h3, if_false] using h
              · simp [h2] at h
        · simp [h1] at h

/-- A larger bound gives the same value. -/
theorem parseValue_fuel_mono {n m : Nat} (hnm : n ≤ m) {inp : Text} {r : Json × Text}
    (h : parseValue n inp = some r) : parseValue m inp = some r := by
  induction hnm with
  | refl => exact h
  | step _ ih => exact (parse_fuel_succ _).1 _ _ ih

/-- A larger bound gives the same elements. -/
theorem parseElements_fuel_mono {n m : Nat} (hnm : n ≤ m) {inp : Text}
    {r : List Json × Text} (h : parseElements n inp = some r) :
    parseElements m inp = some r := by
  induction hnm with
  | refl => exact h
  | step _ ih => exact (parse_fuel_succ _).2.1 _ _ ih

/-- A larger bound gives the same members. -/
theorem parseMembers_fuel_mono {n m : Nat} (hnm : n ≤ m) {inp : Text}
    {acc : List (Text × Json)} {r : List (Text × Json) × Text}
    (h : parseMembers n inp acc = some r) : parseMembers m inp acc = some r := by
  induction hnm with
  | refl => exact h
  | step _ ih => exact (parse_fuel_succ _).2.2 _ _ _ ih


/-- A result of the reader is reached within a bound of twice the number of characters
read, plus one. -/
theorem parse_fuel_bound (m : Nat) :
    (∀ inp v rest, parseValue m inp = some (v, rest) →
        parseValue (2 * (inp.length - rest.length) + 1) inp = some (v, rest))
    ∧ (∀ inp vs rest, parseElements m inp = some (vs, rest) →
        parseElements (2 * (inp.length - rest.length) + 1) inp = some (vs, rest))
    ∧ (∀ inp acc ms rest, parseMembers m inp acc = some (ms, rest) →
        parseMembers (2 * (inp.length - rest.length) + 1) inp acc = some (ms, rest)) := by
  induction m with
  | zero =>
    refine ⟨?_, ?_, ?_⟩
    · intro inp v rest h; simp [parseValue] at h
    · intro inp vs rest h; simp [parseElements] at h
    · intro inp acc ms rest h; simp [parseMembers] at h
  | succ n ih =>
    obtain ⟨ihV, ihE, ihM⟩ := ih
    refine ⟨?_, ?_, ?_⟩
    · intro inp v rest h
      rw [parseValue] at h ⊢
      cases hs : skipSpace inp with
      | nil => simp [hs] at h
      | cons c rest0 =>
        have a0 := skipSpace_cons_length hs
        simp only [hs] at h ⊢
        by_cases h1 : c = '{'
        · simp only [h1, if_true] at h ⊢
          cases hs1 : skipSpace rest0 with
          | nil => simp [hs1] at h
          | cons d rest1 =>
            have a1 := skipSpace_cons_length hs1
            simp only [hs1] at h ⊢
            by_cases h2 : d = '}'
            · simpa only [h2, if_true] using h
            · simp only [h2, if_false] at h ⊢
              obtain ⟨x, hx, hx2⟩ := Option.map_eq_some'.1 h
              obtain ⟨ms, r⟩ := x
              simp only [Prod.mk.injEq] at hx2
              obtain ⟨rfl, rfl⟩ := hx2
              have a2 := (parse_rest_length _).2.2 _ _ _ _ hx
              simp only [List.length_cons] at a2
              rw [parseMembers_fuel_mono (by simp only [List.length_cons]; omega)
                (ihM _ _ _ _ hx)]
              rfl
        · simp only [h1, if_false] at h ⊢
          by_cases h3 : c = '['
          · simp only [h3, if_true] at h ⊢
            cases hs1 : skipSpace rest0 with
            | nil => simp [hs1] at h
            | cons d rest1 =>
              have a1 := skipSpace_cons_length hs1
              simp only [hs1] at h ⊢
              by_cases h2 : d = ']'
              · simpa only [h2, if_true] using h
              · simp only [h2, if_false] at h ⊢
                obtain ⟨x, hx, hx2⟩ := Option.map_eq_some'.1 h
                obtain ⟨es, r⟩ := x
                simp only [Prod.mk.injEq] at hx2
                obtain ⟨rfl, rfl⟩ := hx2
                have a2 := (parse_rest_length _).2.1 _ _ _ hx
                simp only [List.length_cons] at a2
                rw [parseElements_fuel_mono (by simp only [List.length_cons]; omega)
                  (ihE _ _ _ hx)]
                rfl
          · simpa only [h3, if_false] using h
    · intro inp vs rest h
      rw [parseElements] at h ⊢
      cases hv : parseValue n inp with
      | none => simp [hv] at h
      | some x =>
        obtain ⟨v, r1⟩ := x
        have a0 := (parse_rest_length _).1 _ _ _ hv
        simp only [hv] at h
        cases hs1 : skipSpace r1 with
        | nil => simp [hs1] at h
        | cons d rest1 =>
          have a1 := skipSpace_cons_length hs1
          simp only [hs1] at h
          by_cases h2 : d = ','
          · simp only [h2, if_true] at h
            obtain ⟨x, hx, hx2⟩ := Option.map_eq_some'.1 h
            obtain ⟨more, r⟩ := x
            simp only [Prod.mk.injEq] at hx2
            obtain ⟨rfl, rfl⟩ := hx2
            have a2 := (parse_rest_length _).2.1 _ _ _ hx
            rw [parseValue_fuel_mono (by omega) (ihV _ _ _ hv)]
            simp only [hs1, h2, if_true]
            rw [parseElements_fuel_mono (by omega) (ihE _ _ _ hx)]
            rfl
          · simp only [h2, if_false] at h
            by_cases h3 : d = ']'
            · simp only [h3, if_true, Option.some.injEq, Prod.mk.injEq] at h
              obtain ⟨rfl, rfl⟩ := h
              rw [parseValue_fuel_mono (by omega) (ihV _ _ _ hv)]
              simp [hs1, h3]
            · simp [h3] at h
    · intro inp acc ms rest h
      rw [parseMembers] at h ⊢
      cases hs : skipSpace inp with
      | nil => simp [hs] at h
      | cons q rest0 =>
        have a0 := skipSpace_cons_length hs
        simp only [hs] at h ⊢
        by_cases h1 : q = '"'
        · simp only [h1, if_true] at h ⊢
          cases hk : scanString .plain rest0 with
          | none => simp [hk] at h
          | some x =>
            obtain ⟨key, rest1⟩ := x
            have ak := scanString_rest_length hk
            simp only [hk] at h ⊢
            cases hs2 : skipSpace rest1 with
            | nil => simp [hs2] at h
            | cons colon rest2 =>
              have a2 := skipSpace_cons_length hs2
              simp only [hs2] at h ⊢
              by_cases h2 : colon = ':'
              · simp only [h2, if_true] at h ⊢
                cases hv : parseValue n rest2 with
                | none => simp [hv] at h
                | some y =>
                  obtain ⟨v, rest3⟩ := y
                  have a3 := (parse_rest_length _).1 _ _ _ hv
                  simp only [hv] at h
                  cases hs4 : skipSpace rest3 with
                  | nil => simp [hs4] at h
                  | cons d rest4 =>
                    have a4 := skipSpace_cons_length hs4
                    simp only [hs4] at h
                    by_cases h3 : d = ','
                    · simp only [h3, if_true] at h
                      have a5 := (parse_rest_length _).2.2 _ _ _ _ h
                      rw [parseValue_fuel_mono (by omega) (ihV _ _ _ hv)]
                      simp only [hs4, h3, if_true]
                      exact parseMembers_fuel_mono (by omega) (ihM _ _ _ _ h)
                    · simp only [h3, if_false] at h
                      by_cases h4 : d = '}'
                      · simp only [h4, if_true, Option.some.injEq, Prod.mk.injEq] at h
                        obtain ⟨rfl, rfl⟩ := h
                        rw [parseValue_fuel_mono (by omega) (ihV _ _ _ hv)]
                        simp [hs4, h4]
                      · simp [h4] at h
              · simp [h2] at h
        · simp [h1] at h

/-- The bound of `parseJson` is never what makes it reject an input: whatever the reader
returns for some bound, it returns for the bound `parseJson` uses. -/
theorem parseValue_fuel_enough {m : Nat} {inp : Text} {v : Json} {rest : Text}
    (h : parseValue m inp = some (v, rest)) :
    parseValue (2 * inp.length + 2) inp = some (v, rest) :=
  parseValue_fuel_mono (by omega) ((parse_fuel_bound m).1 _ _ _ h)

/-- The value `parseJson` returns is the value the reader returns for any bound that
lets it read the whole input. -/
theorem parseJson_eq_some_iff (inp : Text) (v : Json) :
    parseJson inp = some v ↔
      ∃ body m rest, stripBom inp = some body ∧ parseValue m body = some (v, rest)
        ∧ skipSpace rest = [] := by
  constructor
  · intro h
    unfold parseJson at h
    cases hb : stripBom inp with
    | none => simp [hb] at h
    | some body =>
      simp only [hb] at h
      cases hv : parseValue (2 * body.length + 2) body with
      | none => simp [hv] at h
      | some x =>
        obtain ⟨v1, rest⟩ := x
        simp only [hv] at h
        cases hs : skipSpace rest with
        | nil =>
          simp only [hs, Option.some.injEq] at h
          subst h
          exact ⟨body, _, rest, rfl, hv, hs⟩
        | cons c cs => simp [hs] at h
  · rintro ⟨body, m, rest, hb, hv, hs⟩
    unfold parseJson
    simp only [hb, parseValue_fuel_enough hv, hs]

/-! ## Theorems: the request body -/

/-- A literal made of plain ASCII characters decodes to itself. -/
theorem scanString_plainAscii (text rest : Text) (h : ∀ c ∈ text, isPlainAscii c = true) :
    scanString .plain (text ++ '"' :: rest) = some (text, rest) := by
  induction text with
  | nil => simp [scanString, Scan.isPlain]
  | cons c cs ih =>
    have hc : isPlainAscii c = true := h c (List.mem_cons_self _ _)
    have hcs : ∀ d ∈ cs, isPlainAscii d = true := fun d hd => h d (List.mem_cons_of_mem _ hd)
    simp only [isPlainAscii, Bool.and_eq_true, decide_eq_true_eq, bne_iff_ne, ne_eq] at hc
    obtain ⟨⟨⟨h1, h2⟩, h3⟩, h4⟩ := hc
    have hstep : scanStep .plain c = some (.plain, [c]) := by
      simp [scanStep, h4, h2]
      omega
    simp [scanString, h3, hstep, ih hcs]

/-- The payload, token by token. -/
theorem jsonPayload_eq (text : Text) :
    jsonPayload text = '{' :: '"' :: (languageKey ++ '"' :: ':' :: ' ' :: '"' ::
      (languageCode ++ '"' :: ',' :: ' ' :: '"' :: (textsKey ++ '"' :: ':' :: ' ' :: '[' :: '"' ::
        (text ++ ['"', ']', '}'])))) := by
  rfl

/-- The key `targetLanguageCode` as a string literal. -/
theorem scan_languageKey (rest : Text) :
    scanString .plain (languageKey ++ '"' :: rest) = some (languageKey, rest) :=
  scanString_plainAscii _ _ (by decide)

/-- The code `en` as a string literal. -/
theorem scan_languageCode (rest : Text) :
    scanString .plain (languageCode ++ '"' :: rest) = some (languageCode, rest) :=
  scanString_plainAscii _ _ (by decide)

/-- The key `texts` as a string literal. -/
theorem scan_textsKey (rest : Text) :
    scanString .plain (textsKey ++ '"' :: rest) = some (textsKey, rest) :=
  scanString_plainAscii _ _ (by decide)

/-- The members after `texts` has been stored behind `targetLanguageCode`. -/
theorem setMember_texts (v : Json) :
    setMember textsKey v [(languageKey, .string languageCode)]
      = [(languageKey, .string languageCode), (textsKey, v)] := by
  have h : languageKey ≠ textsKey := by decide
  simp [setMember, h]

/-- The reader at an opening brace that a quote follows. -/
theorem parseValue_object (f : Nat) (r : Text) :
    parseValue (f + 1) ('{' :: '"' :: r)
      = (parseMembers f ('"' :: r) []).map (fun x => (.object x.1, x.2)) := by
  rw [parseValue]
  simp [skipSpace, isJsonSpace]

/-- The reader at an opening bracket that a quote follows. -/
theorem parseValue_array (f : Nat) (r : Text) :
    parseValue (f + 1) ('[' :: '"' :: r)
      = (parseElements f ('"' :: r)).map (fun x => (.array x.1, x.2)) := by
  rw [parseValue]
  simp [skipSpace, isJsonSpace]

/-- The reader skips a space before a value. -/
theorem parseValue_spaced (f : Nat) (r : Text) :
    parseValue (f + 1) (' ' :: r) = parseValue (f + 1) r := by
  rw [parseValue, parseValue]
  simp [skipSpace, isJsonSpace]

/-- The reader at a quote. -/
theorem parseValue_string (f : Nat) (r : Text) :
    parseValue (f + 1) ('"' :: r)
      = (scanString .plain r).map (fun x => (.string x.1, x.2)) := by
  rw [parseValue]
  simp [skipSpace, isJsonSpace]

/-- The reader at a member whose key is a known literal followed by a colon. -/
theorem parseMembers_step (f : Nat) (key r : Text) (acc : List (Text × Json))
    (hkey : scanString .plain (key ++ '"' :: ':' :: r) = some (key, ':' :: r)) :
    parseMembers (f + 1) ('"' :: (key ++ '"' :: ':' :: r)) acc
      = match parseValue f r with
        | none => none
        | some (v, rest3) =>
          match skipSpace rest3 with
          | [] => none
          | d :: rest4 =>
            if d = ',' then parseMembers f rest4 (setMember key v acc)
            else if d = '}' then some (setMember key v acc, rest4)
            else none := by
  rw [parseMembers]
  simp [skipSpace, isJsonSpace, hkey]

/-- The reader skips a space before a member. -/
theorem parseMembers_spaced (f : Nat) (r : Text) (acc : List (Text × Json)) :
    parseMembers (f + 1) (' ' :: r) acc = parseMembers (f + 1) r acc := by
  rw [parseMembers, parseMembers]
  simp [skipSpace, isJsonSpace]

/-- The reader over a member whose value is a known string and that a comma follows. -/
theorem parseMembers_string_member (g : Nat) (key val r : Text) (acc : List (Text × Json))
    (hkey : ∀ x, scanString .plain (key ++ '"' :: x) = some (key, x))
    (hval : ∀ x, scanString .plain (val ++ '"' :: x) = some (val, x)) :
    parseMembers (g + 2) ('"' :: (key ++ '"' :: ':' :: ' ' :: '"' :: (val ++ '"' :: ',' :: r))) acc
      = parseMembers (g + 1) r (setMember key (.string val) acc) := by
  rw [parseMembers_step _ _ _ _ (hkey _), parseValue_spaced, parseValue_string, hval]
  simp [skipSpace, isJsonSpace]

/-- The reader at a member after a space, up to its value. -/
theorem parseMembers_last_member (g : Nat) (key r : Text) (acc : List (Text × Json))
    (hkey : ∀ x, scanString .plain (key ++ '"' :: x) = some (key, x)) :
    parseMembers (g + 2) (' ' :: '"' :: (key ++ '"' :: ':' :: ' ' :: r)) acc
      = match parseValue (g + 1) r with
        | none => none
        | some (v, rest3) =>
          match skipSpace rest3 with
          | [] => none
          | d :: rest4 =>
            if d = ',' then parseMembers (g + 1) rest4 (setMember key v acc)
            else if d = '}' then some (setMember key v acc, rest4)
            else none := by
  rw [parseMembers_spaced, parseMembers_step _ _ _ _ (hkey _), parseValue_spaced]

/-- The reader on a payload, up to the value of `texts`. -/
theorem parseValue_payload (n : Nat) (u : Text) :
    parseValue (n + 4) ('{' :: '"' :: (languageKey ++ '"' :: ':' :: ' ' :: '"' ::
      (languageCode ++ '"' :: ',' :: ' ' :: '"' :: (textsKey ++ '"' :: ':' :: ' ' :: '[' :: '"' ::
        u))))
    = Option.map (fun r : List (Text × Json) × Text => (Json.object r.1, r.2))
      (match parseValue (n + 1) ('[' :: '"' :: u) with
      | none => none
      | some (v, rest3) =>
        match skipSpace rest3 with
        | [] => none
        | d :: rest4 =>
          if d = ',' then parseMembers (n + 1) rest4 (setMember textsKey v languageMember)
          else if d = '}' then some (setMember textsKey v languageMember, rest4)
          else none) := by
  rw [parseValue_object, parseMembers_string_member _ _ _ _ _ scan_languageKey scan_languageCode,
    parseMembers_last_member _ _ _ _ scan_textsKey]
  rfl

/-- The reader over an array of one known string. -/
theorem parseElements_single (f : Nat) (text r : Text)
    (h : ∀ x, scanString .plain (text ++ '"' :: x) = some (text, x)) :
    parseElements (f + 2) ('"' :: (text ++ '"' :: ']' :: r)) = some ([.string text], r) := by
  rw [parseElements, parseValue_string, h]
  simp [skipSpace, isJsonSpace]

/-- A string without NUL is its own C string. -/
theorem cString_of_no_nul (s : Text) (h : ∀ c ∈ s, c ≠ Char.ofNat 0) : cString s = s := by
  unfold cString
  rw [List.takeWhile_eq_self_iff]
  intro c hc
  simpa using h c hc

/-- A plain ASCII character is not NUL. -/
theorem plainAscii_ne_nul (c : Char) (h : isPlainAscii c = true) : c ≠ Char.ofNat 0 := by
  intro hc
  subst hc
  exact absurd h (by decide)

/-- C8, as amended. For every ASCII text that holds no double quote, no backslash and
no control character (every code is at least `0x20`), the body the client posts is the
payload it built, and that payload is well-formed JSON that decodes to the object with
`targetLanguageCode` equal to `en` and `texts` holding exactly the one text. -/
theorem request_body_decodes (apiKey : String) (text : Text)
    (h : ∀ c ∈ text, isPlainAscii c = true) :
    (mkRequest apiKey text).body = jsonPayload text
    ∧ parseJson (jsonPayload text) = some (requestObject text) := by
  have hscan : ∀ x, scanString .plain (text ++ '"' :: x) = some (text, x) :=
    fun x => scanString_plainAscii text x h
  constructor
  · show cString (jsonPayload text) = jsonPayload text
    apply cString_of_no_nul
    intro c hc
    simp only [jsonPayload, List.mem_append] at hc
    rcases hc with (hc | hc) | hc
    · revert c; decide
    · exact plainAscii_ne_nul c (h c hc)
    · revert c; decide
  · have hlen : ∃ n, 2 * (jsonPayload text).length + 2 = n + 6 :=
      ⟨2 * (jsonPayload text).length - 4, by
        have : 2 ≤ (jsonPayload text).length := by
          rw [jsonPayload_eq]; simp
        omega⟩
    obtain ⟨n, hn⟩ := hlen
    have hbom : stripBom (jsonPayload text) = some (jsonPayload text) := by
      rw [jsonPayload_eq]; rfl
    unfold parseJson
    rw [hbom]
    simp only
    rw [hn, jsonPayload_eq, parseValue_payload, parseValue_array,
      show (text ++ ['"', ']', '}']) = text ++ '"' :: ']' :: ['}'] from rfl,
      parseElements_single _ _ _ hscan]
    simp [skipSpace, isJsonSpace, languageMember, setMember_texts, requestObject]

/-- C8, an instance: the text `hola mundo`. -/
theorem request_body_decodes_example :
    (mkRequest "" "hola mundo".toList).body = jsonPayload "hola mundo".toList
    ∧ parseJson (jsonPayload "hola mundo".toList) = some (requestObject "hola mundo".toList) :=
  request_body_decodes "" "hola mundo".toList (by decide)

/-- C8, counterexample. The text `hola` followed by a line feed is not empty, is ASCII
and holds neither a double quote nor a backslash, yet the reader rejects its payload:
a line feed may not stand in a string literal. -/
theorem request_body_newline_rejected :
    ("hola\n".toList ≠ [] ∧ ∀ c ∈ "hola\n".toList, c.toNat < 128 ∧ c ≠ '"' ∧ c ≠ '\\')
    ∧ scanStep .plain '\n' = none
    ∧ parseJson (jsonPayload "hola\n".toList) = none
    ∧ parseJson (mkRequest "" "hola\n".toList).body = none :=
  ⟨⟨by decide, by decide⟩, rfl, rfl, rfl⟩

/-- The value read at the array of a payload starts with the string read at the text, and
at least the closing quote and one more character are gone once it is read. -/
theorem parseValue_first_array {f : Nat} {u : Text} {v : Json} {rest3 : Text}
    (h : parseValue f ('[' :: '"' :: u) = some (v, rest3)) :
    ∃ s r2 more, scanString .plain u = some (s, r2) ∧ v = .array (.string s :: more)
      ∧ rest3.length + 1 ≤ r2.length := by
  cases f with
  | zero => simp [parseValue] at h
  | succ g =>
    rw [parseValue_array] at h
    obtain ⟨x, hx, hx2⟩ := Option.map_eq_some'.1 h
    simp only [Prod.mk.injEq] at hx2
    obtain ⟨rfl, rfl⟩ := hx2
    obtain ⟨g1, v0, r1, d, rest1, rfl, hv, hs, hcase⟩ :=
      parseElements_inv (show parseElements g ('"' :: u) = some (x.1, x.2) from hx)
    cases g1 with
    | zero => simp [parseValue] at hv
    | succ g2 =>
      rw [parseValue_string] at hv
      obtain ⟨y, hy, hy2⟩ := Option.map_eq_some'.1 hv
      simp only [Prod.mk.injEq] at hy2
      obtain ⟨rfl, rfl⟩ := hy2
      have a1 := skipSpace_cons_length hs
      rcases hcase with ⟨_, more, hm, hes⟩ | ⟨_, hes, hr⟩
      · have a2 := (parse_rest_length _).2.1 _ _ _ hm
        simp only at a1 a2
        exact ⟨y.1, y.2, more, hy, by rw [hes], by omega⟩
      · have a2 := congrArg List.length hr
        simp only at a1 a2
        exact ⟨y.1, y.2, [], hy, by rw [hes], by omega⟩

/-- The literal that starts at the text decodes to the text only if the text holds
neither a quote nor a backslash. -/
theorem scan_text_faithful {text u r2 : Text}
    (hu : u = text ++ ['"', ']', '}'] ∨ u.length < text.length)
    (h : scanString .plain u = some (text, r2)) : ∀ c ∈ text, c ≠ '"' ∧ c ≠ '\\' := by
  obtain ⟨body, hbody, hle, heq⟩ := scanString_plain_spec u text r2 h
  have hlen : text.length = body.length := by
    rcases hu with hu | hu
    · rw [hu] at hbody
      rcases List.append_eq_append_iff.1 hbody with ⟨c, hc, hc2⟩ | ⟨a, ha, _⟩
      · rcases c with _ | ⟨x, _ | ⟨y, _ | ⟨z, w⟩⟩⟩
        · simp at hc; rw [hc]
        · simp at hc2
        · simp at hc2
        · simp at hc2
      · have := congrArg List.length ha
        simp only [List.length_append] at this
        omega
    · have := congrArg List.length hbody
      simp only [List.length_append, List.length_cons] at this
      omega
  obtain ⟨hb, hall⟩ := heq hlen
  rw [hb]
  exact hall

/-- The head of the payload, token by token, before any continuation. -/
theorem payloadHead_append (u : Text) :
    payloadHead ++ u = '{' :: '"' :: (languageKey ++ '"' :: ':' :: ' ' :: '"' ::
      (languageCode ++ '"' :: ',' :: ' ' :: '"' :: (textsKey ++ '"' :: ':' :: ' ' :: '[' :: '"' ::
        u))) := by
  rfl

/-- The value stored under `texts` is the one found there. -/
theorem mem_languageMember_texts {v x : Json} (h : (textsKey, x) ∈ setMember textsKey v languageMember) :
    x = v := by
  rw [languageMember, setMember_texts] at h
  have hk : textsKey ≠ languageKey := by decide
  simp [hk] at h
  exact h

/-- The core of the argument: a payload whose text part is `u` does not read as the
request for `text` unless the text is free of quotes and backslashes. -/
theorem payload_faithful {text u : Text} {n : Nat} {rest : Text}
    (hu : u = text ++ ['"', ']', '}'] ∨ u.length < text.length)
    (h : parseValue (n + 4) (payloadHead ++ u) = some (requestObject text, rest)) :
    ∀ c ∈ text, c ≠ '"' ∧ c ≠ '\\' := by
  have hulen : u.length ≤ text.length + 3 := by
    rcases hu with hu | hu
    · rw [hu]; simp
    · omega
  rw [payloadHead_append, parseValue_payload] at h
  obtain ⟨x, hx, hx2⟩ := Option.map_eq_some'.1 h
  obtain ⟨ms, rest5⟩ := x
  simp only [requestObject, Prod.mk.injEq, Json.object.injEq] at hx2
  obtain ⟨hms, _⟩ := hx2
  have hmem : (textsKey, Json.array [.string text]) ∈ ms := by rw [hms]; simp
  split at hx
  · cases hx
  · rename_i v rest3 hv
    obtain ⟨s, r2, more, hscan, hvs, hr3⟩ := parseValue_first_array hv
    have hfirst : v = .array [.string text] → ∀ c ∈ text, c ≠ '"' ∧ c ≠ '\\' := by
      intro hv2
      rw [hvs] at hv2
      simp only [Json.array.injEq, List.cons.injEq, Json.string.injEq] at hv2
      obtain ⟨rfl, _⟩ := hv2
      exact scan_text_faithful hu hscan
    split at hx
    · cases hx
    · rename_i d rest4 hs4
      have h4 := skipSpace_cons_length hs4
      have hsl := scanString_rest_length hscan
      split_ifs at hx
      · rcases parseMembers_fits _ _ _ _ _ hx _ hmem with hp | hp
        · exact hfirst (mem_languageMember_texts hp).symm
        · have := hp text rfl
          omega
      · simp only [Option.some.injEq, Prod.mk.injEq] at hx
        obtain ⟨hset, _⟩ := hx
        rw [← hset] at hmem
        exact hfirst (mem_languageMember_texts hmem).symm

/-- The same for `parseJson`. -/
theorem parseJson_payload_faithful {text u : Text}
    (hu : u = text ++ ['"', ']', '}'] ∨ u.length < text.length)
    (h : parseJson (payloadHead ++ u) = some (requestObject text)) :
    ∀ c ∈ text, c ≠ '"' ∧ c ≠ '\\' := by
  have hbom : stripBom (payloadHead ++ u) = some (payloadHead ++ u) := by
    rw [payloadHead_append]; rfl
  obtain ⟨n, hn⟩ : ∃ n, 2 * (payloadHead ++ u).length + 2 = n + 4 :=
    ⟨2 * (payloadHead ++ u).length - 2, by
      have : 1 ≤ (payloadHead ++ u).length := by rw [payloadHead_append]; simp
      omega⟩
  unfold parseJson at h
  rw [hbom] at h
  simp only [hn] at h
  split at h
  · cases h
  · rename_i v rest hv
    split at h
    · simp only [Option.some.injEq] at h
      subst h
      exact payload_faithful hu hv
    · cases h

/-- A prefix taken from two lists takes all of the first or stops inside it. -/
theorem takeWhile_append_cases {α : Type} (p : α → Bool) (a b : List α) :
    (a ++ b).takeWhile p = a ++ b.takeWhile p ∨ ((a ++ b).takeWhile p).length < a.length := by
  induction a with
  | nil => exact Or.inl rfl
  | cons x xs ih =>
    simp only [List.cons_append, List.takeWhile_cons]
    cases hp : p x with
    | true =>
      rcases ih with ih | ih
      · exact Or.inl (by simp [ih])
      · exact Or.inr (by simpa using ih)
    | false => exact Or.inr (by simp)

/-- The body posted for a text: the payload, or the payload cut inside the text. -/
theorem cString_payload (text : Text) :
    ∃ u, cString (jsonPayload text) = payloadHead ++ u
      ∧ (u = text ++ ['"', ']', '}'] ∨ u.length < text.length) := by
  have hhead : ∀ c ∈ payloadHead, (c != Char.ofNat 0) = true := by decide
  unfold cString jsonPayload
  rw [List.append_assoc, List.takeWhile_append_of_pos hhead]
  refine ⟨_, rfl, ?_⟩
  rcases takeWhile_append_cases (fun c => c != Char.ofNat 0) text payloadTail with h | h
  · left
    rw [h]
    rfl
  · exact Or.inr h

/-- C9, as amended. For every text that holds a double quote or a backslash, the
payload built by concatenation is not a JSON encoding of the request for that text: the
reader either rejects it or returns a value other than the object with
`targetLanguageCode` equal to `en` and `texts` holding exactly the text; the same is
true of the body that is posted. -/
theorem unescaped_text_not_transmitted (apiKey : String) (text : Text)
    (h : ∃ c ∈ text, c = '"' ∨ c = '\\') :
    parseJson (jsonPayload text) ≠ some (requestObject text)
    ∧ parseJson (mkRequest apiKey text).body ≠ some (requestObject text) := by
  obtain ⟨c, hc, hcq⟩ := h
  constructor
  · intro hp
    have := parseJson_payload_faithful (u := text ++ ['"', ']', '}']) (Or.inl rfl)
      (by rw [← hp]; simp [jsonPayload, payloadTail]) c hc
    rcases hcq with hcq | hcq
    · exact this.1 hcq
    · exact this.2 hcq
  · intro hp
    obtain ⟨u, hu, hcase⟩ := cString_payload text
    have hbody : (mkRequest apiKey text).body = payloadHead ++ u := hu
    rw [hbody] at hp
    have := parseJson_payload_faithful hcase hp c hc
    rcases hcq with hcq | hcq
    · exact this.1 hcq
    · exact this.2 hcq

/-- C9, an instance: the text `say "hi"`. -/
theorem unescaped_text_not_transmitted_example :
    (∃ c ∈ "say \"hi\"".toList, c = '"' ∨ c = '\\')
    ∧ parseJson (jsonPayload "say \"hi\"".toList) ≠ some (requestObject "say \"hi\"".toList) :=
  ⟨⟨'"', by decide, Or.inl rfl⟩,
    (unescaped_text_not_transmitted "" "say \"hi\"".toList ⟨'"', by decide, Or.inl rfl⟩).1⟩

/-- C9, counterexample. The text made of a backslash and the letter `n` holds a
backslash, and its payload is well-formed JSON: the reader returns an object whose
`texts` holds the one-character string "line feed". The text `a","b` holds two double
quotes, and its payload is well-formed JSON with two strings in `texts`. -/
theorem backslash_payload_well_formed :
    parseJson (jsonPayload ['\\', 'n'])
      = some (.object [(languageKey, .string languageCode),
          (textsKey, .array [.string ['\n']])])
    ∧ parseJson (jsonPayload "a\",\"b".toList)
      = some (.object [(languageKey, .string languageCode),
          (textsKey, .array [.string ['a'], .string ['b']])]) :=
  ⟨rfl, rfl⟩

/-! ## Theorems: the parse step -/

/-- Line 70 returns `s` exactly on a value of the expected shape. -/
theorem extractText_ok_iff (j : Json) (s : Text) :
    extractText j = .ok s ↔ HasTranslation j s := by
  unfold HasTranslation
  constructor
  · intro h
    cases j with
    | object ms =>
      cases hl : lookupMember translationsKey ms with
      | none => simp [extractText, Json.atKey, hl, Json.atIndex, Json.getString] at h
      | some tr =>
        cases tr with
        | array es =>
          cases es with
          | nil => simp [extractText, Json.atKey, hl, Json.atIndex, Json.getString] at h
          | cons e0 rest =>
            cases e0 with
            | object fields =>
              cases hf : lookupMember textKey fields with
              | none => simp [extractText, Json.atKey, hl, Json.atIndex, Json.getString, hf] at h
              | some v =>
                cases v <;>
                  simp [extractText, Json.atKey, hl, Json.atIndex, Json.getString, hf] at h
                subst h
                exact ⟨ms, rest, fields, rfl, hl, hf⟩
            | _ => simp [extractText, Json.atKey, hl, Json.atIndex, Json.getString] at h
        | _ => simp [extractText, Json.atKey, hl, Json.atIndex, Json.getString] at h
    | _ => simp [extractText, Json.atKey, Json.atIndex, Json.getString] at h
  · rintro ⟨ms, elems, fields, rfl, hl, hf⟩
    simp [extractText, Json.atKey, hl, Json.atIndex, Json.getString, hf]

/-- C6. For every response body, the parse step returns `s` exactly when the body is
JSON whose top-level object has under `translations` a non-empty array whose element 0
is an object with the string `s` under `text`; for every other body it fails with an
exception instead of returning a text; and two responses whose `translations` arrays
agree on element 0 give the same result, whatever follows in the arrays. -/
theorem parseResponse_shape (body : Text) :
    (∀ s, parseResponse body = .ok s ↔ ∃ j, parseJson body = some j ∧ HasTranslation j s)
    ∧ ((¬ ∃ j s, parseJson body = some j ∧ HasTranslation j s) →
        ∃ e, parseResponse body = .error e)
    ∧ (∀ ms ms1 e0 rest rest1,
        lookupMember translationsKey ms = some (.array (e0 :: rest)) →
        lookupMember translationsKey ms1 = some (.array (e0 :: rest1)) →
        extractText (.object ms) = extractText (.object ms1)) := by
  have hiff : ∀ s, parseResponse body = .ok s ↔
      ∃ j, parseJson body = some j ∧ HasTranslation j s := by
    intro s
    unfold parseResponse
    cases hp : parseJson body with
    | none => simp
    | some j => simp [extractText_ok_iff]
  refine ⟨hiff, ?_, ?_⟩
  · intro hno
    cases hr : parseResponse body with
    | error e => exact ⟨e, rfl⟩
    | ok s =>
      obtain ⟨j, hj, hs⟩ := (hiff s).1 hr
      exact absurd ⟨j, s, hj, hs⟩ hno
  · intro ms ms1 e0 rest rest1 h1 h2
    simp [extractText, Json.atKey, Json.atIndex, h1, h2]

/-- C6, instances: the mock response, a response with further elements after the
first, and the failures for a body that is no JSON, a missing key, an empty array and a
`text` that is no string. -/
theorem parseResponse_examples :
    parseResponse mockResponse = .ok "hello".toList
    ∧ parseResponse "\x7b\"translations\":[\x7b\"text\":\"a\"\x7d, 7, [1]]\x7d".toList = .ok ['a']
    ∧ parseResponse "<html>".toList = .error .parse_error
    ∧ parseResponse "\x7b\x7d".toList = .error (.type_error 302)
    ∧ parseResponse "\x7b\"translations\":[]\x7d".toList = .error (.type_error 302)
    ∧ parseResponse "\x7b\"translations\":[\x7b\"text\":5\x7d]\x7d".toList
        = .error (.type_error 302)
    ∧ parseResponse "[]".toList = .error (.type_error 305) :=
  ⟨((parseResponse_shape mockResponse).1 "hello".toList).2
      ⟨_, rfl, _, _, _, rfl, rfl, rfl⟩,
    rfl, rfl, rfl, rfl, rfl, rfl⟩

/-! ## Theorems: the pipeline -/

/-- What the client returns does not depend on what has been printed. -/
theorem translate_result_emit (apiKey : String) (text : Text) (w : World) (e : Event) :
    (translateUsingYandexAPI apiKey text (w.emit e)).1
      = (translateUsingYandexAPI apiKey text w).1 := by
  unfold translateUsingYandexAPI World.emit
  by_cases h : w.curlAvailable <;> simp [h]

/-- The client changes no file. -/
theorem translate_files (apiKey : String) (text : Text) (w : World) :
    (translateUsingYandexAPI apiKey text w).2.files = w.files
      ∧ (translateUsingYandexAPI apiKey text w).2.writable = w.writable := by
  unfold translateUsingYandexAPI
  by_cases h : w.curlAvailable
  · by_cases h2 : (w.transport (mkRequest apiKey text)).1 = 0 <;> simp [h, h2, World.emit]
  · simp [h]

/-- The empty buffer is no JSON. -/
theorem parseResponse_nil : parseResponse [] = .error .parse_error := by rfl

/-- A client that returns a text has performed the transfer. -/
theorem translate_ok_curl (apiKey : String) (text t : Text) (w : World)
    (h : (translateUsingYandexAPI apiKey text w).1 = .ok t) : w.curlAvailable = true := by
  by_cases hc : w.curlAvailable
  · exact hc
  · unfold translateUsingYandexAPI at h
    simp [hc, parseResponse_nil] at h

/-- The events of a call of the client that has a handle. -/
theorem translate_trace (apiKey : String) (text : Text) (w : World)
    (hc : w.curlAvailable = true) :
    (translateUsingYandexAPI apiKey text w).2.trace
      = w.trace ++ Event.httpPost (mkRequest apiKey text) ::
          (if (w.transport (mkRequest apiKey text)).1 = 0 then []
           else [Event.requestError (w.transport (mkRequest apiKey text)).1]) := by
  unfold translateUsingYandexAPI
  by_cases h2 : (w.transport (mkRequest apiKey text)).1 = 0 <;> simp [hc, h2, World.emit]

/-- The chain of `main`, unfolded: the client runs after two lines have been printed, and
the file is written after the client has returned a text. -/
theorem mainChain_process (apiKey : String) (text : Text) (w : World) :
    (mainChain apiKey).process text w =
      match translateUsingYandexAPI apiKey text (clientWorld text w) with
      | (.ok t, w1) => (.ok t, saveToFile "output.txt" t w1)
      | (.error e, w1) => (.error e, w1) := by
  rfl

/-- The client returns the same inside the chain as on its own. -/
theorem clientWorld_result (apiKey : String) (text : Text) (w : World) :
    (translateUsingYandexAPI apiKey text (clientWorld text w)).1
      = (translateUsingYandexAPI apiKey text w).1 := by
  unfold clientWorld
  rw [translate_result_emit, translate_result_emit]

/-- C3. Whenever the client returns a text `t` for the input, the chain built in `main`
returns exactly `t`; the client is run on the input text itself (after the two decorators
before it have printed) and posts the request made from that text; a writable
`output.txt` holds exactly `t` afterwards, whatever it held before; and with an
`output.txt` that cannot be opened the chain still returns `t` and no file changes. -/
theorem pipeline_returns_translation (text t : Text) (w : World)
    (h : (translateUsingYandexAPI "" text w).1 = .ok t) :
    ((mainChain "").process text w).1 = .ok t
    ∧ ((mainChain "").process text w).2
        = saveToFile "output.txt" t (translateUsingYandexAPI "" text (clientWorld text w)).2
    ∧ Event.httpPost (mkRequest "" text) ∈ ((mainChain "").process text w).2.trace
    ∧ (w.writable "output.txt" = true →
        ((mainChain "").process text w).2.files "output.txt" = some t)
    ∧ (w.writable "output.txt" = false →
        ((mainChain "").process text w).2.files = w.files) := by
  have h1 := clientWorld_result "" text w
  rw [h] at h1
  have hc : (clientWorld text w).curlAvailable = true := translate_ok_curl "" text t _ h1
  have htr := translate_trace "" text (clientWorld text w) hc
  obtain ⟨hf, hw⟩ := translate_files "" text (clientWorld text w)
  rw [mainChain_process]
  generalize translateUsingYandexAPI "" text (clientWorld text w) = r at h1 htr hf hw
  obtain ⟨res, w1⟩ := r
  simp only at h1 htr hf hw
  subst h1
  have hw1 : w1.writable = w.writable := hw
  have hf1 : w1.files = w.files := hf
  refine ⟨rfl, rfl, ?_, ?_, ?_⟩
  · simp only [saveToFile]
    by_cases hs : w1.writable "output.txt" <;> simp [hs, World.emit, World.store, htr]
  · intro hwr
    simp [saveToFile, hw1, hwr, World.emit, World.store]
  · intro hwr
    simp [saveToFile, hw1, hwr, hf1]

/-- C3, an instance: with the mock response of the spec the chain returns `hello` and
`output.txt`, which held `old`, holds `hello`; with an `output.txt` that cannot be
opened it returns `hello` all the same. -/
theorem pipeline_returns_translation_mock :
    (translateUsingYandexAPI "" "hola mundo".toList mockWorld).1 = .ok "hello".toList
    ∧ ((mainChain "").process "hola mundo".toList mockWorld).1 = .ok "hello".toList
    ∧ mockWorld.files "output.txt" = some "old".toList
    ∧ ((mainChain "").process "hola mundo".toList mockWorld).2.files "output.txt"
        = some "hello".toList
    ∧ ((mainChain "").process "hola mundo".toList readOnlyWorld).1 = .ok "hello".toList :=
  ⟨rfl, (pipeline_returns_translation "hola mundo".toList "hello".toList mockWorld rfl).1,
    rfl,
    (pipeline_returns_translation "hola mundo".toList "hello".toList mockWorld rfl).2.2.2.1 rfl,
    (pipeline_returns_translation "hola mundo".toList "hello".toList readOnlyWorld rfl).1⟩

/-- C4, as amended. The chain built in `main` is the Persistence stage wrapping the
WordCount stage wrapping the Logging stage wrapping the client, and whenever the client
succeeds the events of a run come in this order: the word count, the logging notice,
the network call (then the report of its `CURLcode` if that is not `CURLE_OK`), and
last the write of the output file with its confirmation (if the file can be opened). -/
theorem pipeline_event_order (text t : Text) (w : World)
    (h : (translateUsingYandexAPI "" text w).1 = .ok t) :
    mainChain "" = .SaveToFileDecorator
        (.WordCountDecorator (.LoggingDecorator (.BaseTranslator ""))) "output.txt"
    ∧ ((mainChain "").process text w).2.trace
      = w.trace
        ++ [.wordCount (countWords text), .logNotice, .httpPost (mkRequest "" text)]
        ++ (if (w.transport (mkRequest "" text)).1 = 0 then []
            else [.requestError (w.transport (mkRequest "" text)).1])
        ++ (if w.writable "output.txt" = true
            then [.fileWrite "output.txt" t, .saved "output.txt"] else []) := by
  have h1 := clientWorld_result "" text w
  rw [h] at h1
  have hc : (clientWorld text w).curlAvailable = true := translate_ok_curl "" text t _ h1
  have htr := translate_trace "" text (clientWorld text w) hc
  obtain ⟨hf, hw⟩ := translate_files "" text (clientWorld text w)
  refine ⟨rfl, ?_⟩
  rw [mainChain_process]
  generalize translateUsingYandexAPI "" text (clientWorld text w) = r at h1 htr hf hw
  obtain ⟨res, w1⟩ := r
  simp only at h1 htr hf hw
  subst h1
  have hw1 : w1.writable = w.writable := hw
  have ht : (clientWorld text w).transport = w.transport := rfl
  have htr0 : (clientWorld text w).trace
      = w.trace ++ [.wordCount (countWords text), .logNotice] := by
    simp [clientWorld, World.emit]
  rw [ht, htr0] at htr
  simp only [saveToFile, hw1]
  by_cases hs : w.writable "output.txt" = true
  · simp [hs, World.emit, World.store, htr]
  · simp [hs, htr]

/-- C4, an instance: the run on the mock response. -/
theorem pipeline_event_order_mock :
    (translateUsingYandexAPI "" "hola mundo".toList mockWorld).1 = .ok "hello".toList
    ∧ ((mainChain "").process "hola mundo".toList mockWorld).2.trace
      = [.wordCount 2, .logNotice, .httpPost (mkRequest "" "hola mundo".toList),
          .fileWrite "output.txt" "hello".toList, .saved "output.txt"] :=
  ⟨rfl, (pipeline_event_order "hola mundo".toList "hello".toList mockWorld rfl).2⟩

/-- C4, counterexample. In the run on the mock response the client succeeds, the first
event is the word count and the logging notice comes second; the chain of `main` is not
Logging wrapping WordCount wrapping Persistence wrapping the client. -/
theorem logging_not_first :
    (translateUsingYandexAPI "" "hola mundo".toList mockWorld).1 = .ok "hello".toList
    ∧ ((mainChain "").process "hola mundo".toList mockWorld).2.trace.head?
        = some (.wordCount 2)
    ∧ ((mainChain "").process "hola mundo".toList mockWorld).2.trace.get? 1
        = some .logNotice
    ∧ mainChain "" ≠ .LoggingDecorator
        (.WordCountDecorator (.SaveToFileDecorator (.BaseTranslator "") "output.txt")) :=
  ⟨rfl, rfl, rfl, by intro h; cases h⟩

/-- C5. When `input.txt` cannot be opened or is empty, `main` returns 1, no file
changes and nothing happens beyond, at most, the report on `cerr` that the file could not
be opened (so there is no network call, no log or word-count line and no write); when
the file yields a non-empty text on which the chain returns a text, `main` returns 0. -/
theorem main_exit_status (w : World) :
    ((w.files "input.txt" = none ∨ w.files "input.txt" = some []) →
      (main w).1 = .exit 1
      ∧ (main w).2.files = w.files
      ∧ ((main w).2.trace = w.trace ∨ (main w).2.trace = w.trace ++ [.openError "input.txt"]))
    ∧ (∀ text t, w.files "input.txt" = some text → text ≠ [] →
        ((mainChain "").process text w).1 = .ok t → (main w).1 = .exit 0) := by
  constructor
  · rintro (h | h)
    · simp [main, readTextFromFile, h, World.emit]
    · simp [main, readTextFromFile, h]
  · intro text t h hne hok
    have hemp : text.isEmpty = false := by
      cases text with
      | nil => exact absurd rfl hne
      | cons c cs => rfl
    simp only [main, readTextFromFile, h, hemp]
    generalize (mainChain "").process text w = r at hok
    obtain ⟨res, w2⟩ := r
    simp only at hok
    subst hok
    rfl

/-- C5, instances: a missing `input.txt`, an empty one, and the run on the mock
response. -/
theorem main_exit_status_mock :
    ((main noInputWorld).1 = .exit 1 ∧ (main noInputWorld).2.trace = [.openError "input.txt"])
    ∧ ((main emptyInputWorld).1 = .exit 1 ∧ (main emptyInputWorld).2.trace = [])
    ∧ (main mockWorld).1 = .exit 0 :=
  ⟨⟨((main_exit_status noInputWorld).1 (Or.inl rfl)).1, rfl⟩,
    ⟨((main_exit_status emptyInputWorld).1 (Or.inr rfl)).1, rfl⟩,
    (main_exit_status mockWorld).2 "hola mundo".toList "hello".toList rfl (by decide) rfl⟩

/-- C10. Whenever the client fails with an exception, the chain built in `main` fails
with the same exception, every file is as it was before the call, and no write of a
file is among the events of the call; `main` then ends with that exception uncaught and
has changed no file. -/
theorem pipeline_failure_writes_nothing (text : Text) (e : JsonException) (w : World)
    (h : (translateUsingYandexAPI "" text w).1 = .error e) :
    ((mainChain "").process text w).1 = .error e
    ∧ ((mainChain "").process text w).2.files = w.files
    ∧ (∀ n c, Event.fileWrite n c ∈ ((mainChain "").process text w).2.trace →
        Event.fileWrite n c ∈ w.trace)
    ∧ (w.files "input.txt" = some text → text ≠ [] → (main w).1 = .uncaught e ∧
        (main w).2.files = w.files) := by
  have h1 := clientWorld_result "" text w
  rw [h] at h1
  obtain ⟨hf, hw⟩ := translate_files "" text (clientWorld text w)
  have htr : ∀ n c, Event.fileWrite n c ∈
      (translateUsingYandexAPI "" text (clientWorld text w)).2.trace →
      Event.fileWrite n c ∈ w.trace := by
    intro n c
    unfold translateUsingYandexAPI clientWorld World.emit
    by_cases hc : w.curlAvailable = true
    · by_cases h2 : (w.transport (mkRequest "" text)).1 = 0 <;> simp [hc, h2]
    · simp [hc]
  have hproc := mainChain_process "" text w
  generalize translateUsingYandexAPI "" text (clientWorld text w) = r at h1 htr hf hw hproc
  obtain ⟨res, w1⟩ := r
  simp only at h1 htr hf hw
  subst h1
  simp only at hproc
  have hf1 : w1.files = w.files := hf
  refine ⟨by rw [hproc], by rw [hproc]; exact hf1, by rw [hproc]; exact htr, ?_⟩
  intro hin hne
  have hemp : text.isEmpty = false := by
    cases text with
    | nil => exact absurd rfl hne
    | cons c cs => rfl
  simp only [main, readTextFromFile, hin, hemp, hproc]
  exact ⟨rfl, hf1⟩

/-- C10, an instance: a response that is no JSON leaves `output.txt` holding `old`. -/
theorem pipeline_failure_writes_nothing_mock :
    (translateUsingYandexAPI "" "hola mundo".toList garbledWorld).1 = .error .parse_error
    ∧ ((mainChain "").process "hola mundo".toList garbledWorld).1 = .error .parse_error
    ∧ ((mainChain "").process "hola mundo".toList garbledWorld).2.files "output.txt"
        = some "old".toList :=
  ⟨rfl, (pipeline_failure_writes_nothing "hola mundo".toList .parse_error garbledWorld rfl).1,
    by rw [(pipeline_failure_writes_nothing "hola mundo".toList .parse_error
      garbledWorld rfl).2.1]; rfl⟩

/-- C7, as amended. When the transfer fails and the response buffer is empty, the
client posts the request, reports the `CURLcode` on `cerr`, and then still parses the
empty buffer: the call ends with the `parse_error` of the JSON library and returns no
text. A transfer that succeeds is reported by no such line, whatever its body is. -/
theorem transport_failure_reported_then_parsed (apiKey : String) (text : Text) (w : World)
    (hcurl : w.curlAvailable = true)
    (hres : (w.transport (mkRequest apiKey text)).1 ≠ 0)
    (hbuf : received (w.transport (mkRequest apiKey text)).2 = []) :
    translateUsingYandexAPI apiKey text w
      = (.error .parse_error,
          (w.emit (.httpPost (mkRequest apiKey text))).emit
            (.requestError (w.transport (mkRequest apiKey text)).1))
    ∧ ∀ w1 : World, w1.curlAvailable = true → (w1.transport (mkRequest apiKey text)).1 = 0 →
        (translateUsingYandexAPI apiKey text w1).2.trace
          = w1.trace ++ [.httpPost (mkRequest apiKey text)] := by
  constructor
  · unfold translateUsingYandexAPI
    simp [hcurl, hres, hbuf, parseResponse_nil]
  · intro w1 h1 h2
    rw [translate_trace apiKey text w1 h1]
    simp [h2]

/-- C7, an instance: the transfer that fails with code 7 and delivers nothing, next to
the transfer that succeeds with a body that is no JSON. -/
theorem transport_failure_offline :
    translateUsingYandexAPI "" "hola mundo".toList offlineWorld
      = (.error .parse_error,
          (offlineWorld.emit (.httpPost (mkRequest "" "hola mundo".toList))).emit
            (.requestError 7))
    ∧ (translateUsingYandexAPI "" "hola mundo".toList garbledWorld).2.trace
      = [.httpPost (mkRequest "" "hola mundo".toList)] :=
  ⟨(transport_failure_reported_then_parsed "" "hola mundo".toList offlineWorld rfl
      (by decide) rfl).1,
    (transport_failure_reported_then_parsed "" "hola mundo".toList offlineWorld rfl
      (by decide) rfl).2 garbledWorld rfl rfl⟩

/-- C7, counterexample. With a transfer that fails with code 7 and an empty buffer, the
client does go on to parse the buffer: its call ends with `parse_error`, the very
exception it ends with for a response body that is no JSON, and `main` ends with that
exception uncaught. -/
theorem transport_failure_is_parse_error :
    offlineWorld.transport (mkRequest "" "hola mundo".toList) = (7, [])
    ∧ (translateUsingYandexAPI "" "hola mundo".toList offlineWorld).1 = .error .parse_error
    ∧ (translateUsingYandexAPI "" "hola mundo".toList garbledWorld).1 = .error .parse_error
    ∧ (main offlineWorld).1 = .uncaught .parse_error :=
  ⟨rfl, rfl, rfl, rfl⟩

end Lab5
